import Mathlib

/-!
Verification of the minsweeper engine and its MiaSolver.

The definitions below are a shallow embedding of the Rust sources
(`board.rs`, `lib.rs`, `minsweeper.rs`, `solver/mod.rs`, `solver/mia.rs`).
Machine integers are modelled as `Nat`/`Int`; the `u8` subtraction in the
solver's constraint engine is modelled with its release-mode wrapping
semantics (`u8sub`).  Iteration orders of Rust hash sets are modelled
deterministically as insertion-order (row-major discovery order);
`LinkedHashSet` is modelled as an insertion-ordered duplicate-free list,
which matches its actual semantics.
-/

namespace Minsweeper

/-- Grid coordinates `(column, row)`, mirroring `type Point = (usize, usize)`. -/
abbrev Point := Nat × Nat

/-- Mirrors `enum CellType { Safe(u8), Mine, Unknown }`. -/
inductive CellType where
  | Safe (n : Nat)
  | Mine
  | Unknown
deriving DecidableEq, Repr

/-- Mirrors `enum CellState { Unknown, Revealed, Flagged }`. -/
inductive CellState where
  | Unknown
  | Revealed
  | Flagged
deriving DecidableEq, Repr

/-- Mirrors `struct Cell { cell_type, cell_state }`. -/
structure Cell where
  cellType : CellType
  cellState : CellState
deriving DecidableEq, Repr

/-- Mirrors `Cell::EMPTY = Cell::new(CellType::Safe(0), CellState::Unknown)`. -/
def Cell.EMPTY : Cell := ⟨.Safe 0, .Unknown⟩

/-- Mirrors `struct Board { grid: Vec<Vec<Cell>>, size }`; `grid[x][y]` indexing,
with the declared width and height kept beside the grid as in `BoardSize`. -/
structure Board where
  width : Nat
  height : Nat
  grid : List (List Cell)
deriving DecidableEq, Repr

/-- Board indexing `board[point] = grid[x][y]`.  Rust would panic out of bounds;
all in-solver reads are at in-bounds points, so a default cell stands in. -/
def Board.cellAt (b : Board) (p : Point) : Cell :=
  (b.grid.getD p.1 []).getD p.2 Cell.EMPTY

/-- Mirrors `BoardSize::points`: row 0 left to right, then row 1, and so on. -/
def pointsOf (w h : Nat) : List Point :=
  (List.range h).flatMap fun y => (List.range w).map fun x => (x, y)

/-- Mirrors `BoardSize::neighbours`: the clipped 3-by-3 window around `p`
without `p` itself, enumerated row-major (`saturating_sub` is `Nat` subtraction). -/
def neighbours (w h : Nat) (p : Point) : List Point :=
  ((List.range' (p.2 - 1) (min (h - 1) (p.2 + 1) + 1 - (p.2 - 1))).flatMap fun y =>
    (List.range' (p.1 - 1) (min (w - 1) (p.1 + 1) + 1 - (p.1 - 1))).map fun x =>
      ((x, y) : Point)).filter fun q => decide (q ≠ p)

def Board.points (b : Board) : List Point := pointsOf b.width b.height

def Board.nbrs (b : Board) (p : Point) : List Point := neighbours b.width b.height p

/-- Mirrors `enum GameStatus { Playing, Won, Lost, Never }`. -/
inductive GameStatus where
  | Playing
  | Won
  | Lost
  | Never
deriving DecidableEq, Repr

/-- Mirrors `struct GameState { status, board, remaining_mines: isize }`. -/
structure GameState where
  status : GameStatus
  board : Board
  remainingMines : Int
deriving DecidableEq, Repr

def GameState.cellAt (s : GameState) (p : Point) : Cell := s.board.cellAt p

def GameState.stateAt (s : GameState) (p : Point) : CellState := (s.cellAt p).cellState

def GameState.typeAt (s : GameState) (p : Point) : CellType := (s.cellAt p).cellType

/-- Mirrors `enum Operation { Reveal, Chord, Flag }`. -/
inductive Operation where
  | Reveal
  | Chord
  | Flag
deriving DecidableEq, Repr

/-- Mirrors `struct Action { point, operation }`. -/
structure Action where
  point : Point
  operation : Operation
deriving DecidableEq, Repr

/-- Mirrors `enum MiaLogic`, the closed set of justification kinds. -/
inductive MiaLogic where
  | Chord
  | FlagChord
  | RegionDeductionReveal
  | RegionDeductionFlag
  | ZeroMinesRemaining
  | BruteForce
  | BruteForceExhaustion
deriving DecidableEq, Repr

/-- Mirrors `struct Reason { logic, related }`; the related point set is kept
as a duplicate-free list. -/
structure Reason where
  logic : MiaLogic
  related : List Point
deriving DecidableEq, Repr

/-- Mirrors `struct Move { actions: HashSet<Action>, reason }`; the action set
is kept as a duplicate-free list built in discovery order. -/
structure Move where
  actions : List Action
  reason : Option Reason
deriving DecidableEq, Repr

/-- Mirrors `enum GameResult { Won, Lost, Resigned }`. -/
inductive GameResult where
  | Won
  | Lost
  | Resigned
deriving DecidableEq, Repr

/-! ## The MiaSolver: local rule pass -/

/-- The Flagged neighbours of `p` (the solver's `marked_mines`). -/
def flaggedNbrs (s : GameState) (p : Point) : List Point :=
  (s.board.nbrs p).filter fun q => decide (s.stateAt q = .Flagged)

/-- The Hidden neighbours of `p` (cell state `Unknown`). -/
def unknownNbrs (s : GameState) (p : Point) : List Point :=
  (s.board.nbrs p).filter fun q => decide (s.stateAt q = .Unknown)

/-- The Flagged-or-Hidden neighbours of `p` (the solver's `empty_spaces`). -/
def candidateNbrs (s : GameState) (p : Point) : List Point :=
  (s.board.nbrs p).filter fun q =>
    decide (s.stateAt q = .Flagged ∨ s.stateAt q = .Unknown)

/-- Which local rule fired, and at which cell. -/
inductive RuleTag where
  | chordAt (p : Point)
  | flagAllAt (p : Point)
  | overFlagAt (p : Point)
deriving DecidableEq, Repr

/-- The local rule pass at one cell, mirroring the first loop of
`MiaSolver::solve` (mia.rs lines 33-71), tagged with the rule that fired. -/
def localRule (s : GameState) (p : Point) : Option (Move × RuleTag) :=
  match s.typeAt p with
  | .Safe number =>
    let marked := flaggedNbrs s p
    let empty := candidateNbrs s p
    if number = marked.length ∧ empty.length > marked.length then
      some (⟨[⟨p, .Chord⟩], some ⟨.Chord, marked⟩⟩, .chordAt p)
    else if number = empty.length then
      let clicks := (unknownNbrs s p).map fun q => Action.mk q .Flag
      if clicks.isEmpty then none
      else some (⟨clicks, some ⟨.FlagChord, empty⟩⟩, .flagAllAt p)
    else if number < marked.length then
      some (⟨(flaggedNbrs s p).map fun q => Action.mk q .Flag,
             some ⟨.FlagChord, empty⟩⟩, .overFlagAt p)
    else none
  | _ => none

/-- Scans the given points in order and returns the first firing local rule. -/
def scanRules (s : GameState) : List Point → Option (Move × RuleTag)
  | [] => none
  | p :: rest =>
    match localRule s p with
    | some r => some r
    | none => scanRules s rest

/-- The whole local rule pass (row-major scan), with the rule tag. -/
def localPassR (s : GameState) : Option (Move × RuleTag) :=
  scanRules s s.board.points

/-! ## The MiaSolver: region-constraint propagation -/

/-- The wrapping `u8` subtraction of release-mode Rust (a debug build would
panic when `b > a`); arguments of the solver are always below 256. -/
def u8sub (a b : Nat) : Nat := if b ≤ a then a - b else a + 256 - b

/-- Mirrors the solver-local `struct Flag { number: u8, points: HashSet<Point> }`;
the candidate set is kept as a duplicate-free row-major list, so list equality
coincides with the Rust set equality on every constraint the solver builds. -/
structure Flag where
  number : Nat
  points : List Point
deriving DecidableEq, Repr

/-- Mirrors `Flag::contains`: `self.number >= other.number` and point-set
superset. -/
def Flag.contains (a b : Flag) : Bool :=
  decide (b.number ≤ a.number) && decide (∀ q ∈ b.points, q ∈ a.points)

/-- Mirrors `flag >= e` through the `PartialOrd` instance: equality or
containment. -/
def Flag.ge (a b : Flag) : Bool := decide (a = b) || a.contains b

/-- Mirrors `Sub for &Flag`: number subtraction (u8) and point-set difference. -/
def Flag.sub (a b : Flag) : Flag :=
  ⟨u8sub a.number b.number, a.points.filter fun q => decide (q ∉ b.points)⟩

/-- Insertion into an insertion-ordered duplicate-free list, mirroring
`LinkedHashSet::insert` / `HashSet::insert`. -/
def insertFlag (l : List Flag) (f : Flag) : List Flag :=
  if f ∈ l then l else l ++ [f]

/-- The constraint a single numbered cell contributes (mia.rs lines 140-164):
`required = number` minus one per Flagged neighbour (`saturating_sub`, i.e.
truncated `Nat` subtraction), candidates the Hidden neighbours; skipped when
`required = 0` or there are no candidates. -/
def constraintAt (s : GameState) (p : Point) : Option Flag :=
  match s.typeAt p with
  | .Safe number =>
    let required := number - (flaggedNbrs s p).length
    if required = 0 then none
    else
      let nbs := unknownNbrs s p
      if nbs.isEmpty then none else some ⟨required, nbs⟩
  | _ => none

/-- Builds the initial constraint collection in row-major order with
deduplication (the `LinkedHashSet` named `flags`). -/
def buildFlags (s : GameState) : List Flag :=
  s.board.points.foldl
    (fun acc p =>
      match constraintAt s p with
      | some f => insertFlag acc f
      | none => acc)
    []

/-- The reveal move emitted when a derived constraint needs zero mines. -/
def revealMove (R : Flag) (cited : List Point) : Move :=
  ⟨R.points.map fun q => Action.mk q .Reveal, some ⟨.RegionDeductionReveal, cited⟩⟩

/-- The flag move emitted when a derived constraint is saturated. -/
def flagMove (R : Flag) (cited : List Point) : Move :=
  ⟨R.points.map fun q => Action.mk q .Flag, some ⟨.RegionDeductionFlag, cited⟩⟩

/-- The contained-subtraction inner loop for one constraint `A` (mia.rs lines
173-206): either an immediate move, or the updated staging set `to_add`. -/
def checkContained (A : Flag) : List Flag → List Flag → Except Move (List Flag)
  | [], staged => .ok staged
  | B :: rest, staged =>
    let R := A.sub B
    if R.points.isEmpty then checkContained A rest staged
    else if R.number = 0 then .error (revealMove R B.points)
    else if R.number = R.points.length then .error (flagMove R B.points)
    else checkContained A rest (insertFlag staged R)

/-- The overlap-subtraction inner loop for one constraint `A` (mia.rs lines
208-231): only a saturated remainder produces a move. -/
def checkOverlap (A : Flag) : List Flag → Option Move
  | [] => none
  | B :: rest =>
    let R := A.sub B
    if R.points.isEmpty then checkOverlap A rest
    else if R.number = R.points.length then some (flagMove R B.points)
    else checkOverlap A rest

/-- The constraints of the collection contained in `A` (`flag >= e` filter). -/
def containedOf (flags : List Flag) (A : Flag) : List Flag :=
  flags.filter fun B => A.ge B

/-- The constraints of the collection sharing at least one candidate with `A`. -/
def touchingOf (flags : List Flag) (A : Flag) : List Flag :=
  flags.filter fun B => B.points.any fun q => decide (q ∈ A.points)

/-- One constraint's full processing: contained pass, then overlap pass. -/
def passOne (flags : List Flag) (A : Flag) (staged : List Flag) :
    Except Move (List Flag) :=
  match checkContained A (containedOf flags A) staged with
  | .error m => .error m
  | .ok staged1 =>
    match checkOverlap A (touchingOf flags A) with
    | some m => .error m
    | none => .ok staged1

/-- One full pass of the fixed-point loop over the (frozen) collection. -/
def passAll (flags : List Flag) : List Flag → List Flag → Except Move (List Flag)
  | [], staged => .ok staged
  | A :: rest, staged =>
    match passOne flags A staged with
    | .error m => .error m
    | .ok staged1 => passAll flags rest staged1

/-- End-of-pass insertion of the staged constraints; the Bool mirrors
`changed = to_add.map(insert).reduce(or).unwrap_or(false)`. -/
def insertAll : List Flag → List Flag → List Flag × Bool
  | flags, [] => (flags, false)
  | flags, f :: rest =>
    let isNew : Bool := decide (f ∉ flags)
    let res := insertAll (insertFlag flags f) rest
    (res.1, isNew || res.2)

/-- Result of the fixed-point loop.  `fuelOut` marks exhaustion of the fuel;
the termination theorem shows `fuelOut` is never reached at `fuelBound`. -/
inductive PropOutcome where
  | move (m : Move)
  | done (flags : List Flag)
  | fuelOut
deriving DecidableEq, Repr

def PropOutcome.isMove : PropOutcome → Bool
  | .move _ => true
  | _ => false

/-- The `while changed` fixed-point loop of mia.rs lines 166-238, with fuel. -/
def propLoop : Nat → List Flag → PropOutcome
  | 0, _ => .fuelOut
  | fuel + 1, flags =>
    match passAll flags flags [] with
    | .error m => .move m
    | .ok staged =>
      let res := insertAll flags staged
      if res.2 then propLoop fuel res.1 else .done res.1

def maxNumber (l : List Flag) : Nat := l.foldl (fun acc f => max acc f.number) 0

/-- A fuel amount proven sufficient for the fixed-point loop to stabilise. -/
def fuelBound (s : GameState) : Nat :=
  (maxNumber (buildFlags s) + 1) * 2 ^ (s.board.width * s.board.height) + 1

/-! ## The MiaSolver: global exhaustion check and bounded frontier search -/

/-- The `remaining_mines == 0` stage (mia.rs lines 240-249). -/
def exhaustStage (s : GameState) : Option Move :=
  if s.remainingMines = 0 then
    let clicks := (s.board.points.filter fun p => decide (s.stateAt p = .Unknown)).map
      fun p => Action.mk p .Reveal
    if clicks.isEmpty then none
    else some ⟨clicks, some ⟨.RegionDeductionFlag, []⟩⟩
  else none

/-- Whether `q` holds a revealed positive number (`Safe(n)` with `n > 0`). -/
def posSafe (s : GameState) (q : Point) : Bool :=
  match s.typeAt q with
  | .Safe n => decide (0 < n)
  | _ => false

/-- The frontier `empties`: Hidden cells with a positive numbered neighbour. -/
def emptiesOf (s : GameState) : List Point :=
  s.board.points.filter fun p =>
    decide (s.stateAt p = .Unknown) && (s.board.nbrs p).any (posSafe s)

/-- Insertion into an insertion-ordered duplicate-free point list. -/
def insertPt (l : List Point) (q : Point) : List Point :=
  if q ∈ l then l else l ++ [q]

/-- The `adjacents`: positive numbered cells bordering the frontier, in
row-major discovery order. -/
def adjacentsOf (s : GameState) : List Point :=
  s.board.points.foldl
    (fun acc p =>
      if s.stateAt p = .Unknown then
        (s.board.nbrs p).foldl
          (fun acc2 q => if posSafe s q then insertPt acc2 q else acc2) acc
      else acc)
    []

/-- Mirrors `recursive_get_flag_combinations` exactly, including its recursion
on `start + 1` (rather than `i + 1`), which also yields sub-sized selections;
the `mines_to_flag < 1` guard is the zero case, and `mines_to_flag == 1` is
`mtf + 1` with `mtf = 0`. -/
def recGetFlagCombinations : List Point → List Point → Nat → Nat → List (List Point)
  | _, _, _, 0 => []
  | selected, empties, start, mtf + 1 =>
    (List.range' start (empties.length - start)).flatMap fun i =>
      let sel := insertPt selected (empties.getD i (0, 0))
      if mtf = 0 then [sel]
      else recGetFlagCombinations sel empties (start + 1) mtf

/-- Mirrors `get_flag_combinations`. -/
def getFlagCombinations (empties : List Point) (minesToFlag : Nat) :
    List (List Point) :=
  if empties.length < minesToFlag then []
  else recGetFlagCombinations [] empties 0 minesToFlag

/-- Writes one cell of the grid (in-bounds writes only ever occur). -/
def Board.setCell (b : Board) (p : Point) (c : Cell) : Board :=
  { b with grid := b.grid.set p.1 ((b.grid.getD p.1 []).set p.2 c) }

def GameState.setCellState (s : GameState) (p : Point) (cs : CellState) : GameState :=
  { s with board := s.board.setCell p ⟨s.typeAt p, cs⟩ }

/-- Mirrors `simulate_right_click`; the `Revealed` arm is `unreachable!()` in
the source and is never hit from `bruteForce`. -/
def simulateRightClick (s : GameState) (p : Point) : GameState :=
  match s.stateAt p with
  | .Unknown =>
    { s.setCellState p .Flagged with remainingMines := s.remainingMines - 1 }
  | .Flagged =>
    { s.setCellState p .Unknown with remainingMines := s.remainingMines + 1 }
  | .Revealed => s

/-- Mirrors `simulate_reveal`. -/
def simulateReveal (s : GameState) (p : Point) : GameState :=
  s.setCellState p .Revealed

/-- Applies one chosen combination to the hypothetical state: combination
members are flagged, remaining candidates marked revealed for bookkeeping. -/
def applyCombo (s : GameState) (empties combo : List Point) : GameState :=
  empties.foldl
    (fun t q => if q ∈ combo then simulateRightClick t q else simulateReveal t q) s

/-- Mirrors `brute_force` (mia.rs lines 306-360); the recursion over the
`index`-suffix of the adjacents list becomes structural recursion, and the
`index + 1 == points.len()` yield coincides with the `[]` base case. -/
def bruteForce : List Point → GameState → List GameState
  | [], s => [s]
  | current :: rest, s =>
    match s.typeAt current with
    | .Safe number =>
      let empt := unknownNbrs s current
      let flagsC := (flaggedNbrs s current).length
      let minesToFlag := u8sub number flagsC
      if (minesToFlag : Int) > s.remainingMines ∨ minesToFlag > empt.length then []
      else if minesToFlag = 0 ∨ empt.isEmpty then bruteForce rest s
      else
        (getFlagCombinations empt minesToFlag).flatMap fun combo =>
          bruteForce rest (applyCombo s empt combo)
    | _ => []

/-- The bounded frontier search stage (mia.rs lines 251-300). -/
def bruteStage (s : GameState) : Option Move :=
  let empties := emptiesOf s
  let adjacents := adjacentsOf s
  if empties.length < 30 ∧ ¬adjacents.isEmpty then
    let states := bruteForce adjacents s
    if states.isEmpty then none
    else
      let clicks := empties.foldl
        (fun acc p =>
          let acc1 :=
            if states.all fun t => decide (t.stateAt p ≠ .Flagged) then
              acc ++ [Action.mk p .Reveal]
            else acc
          if states.all fun t => decide (t.stateAt p = .Flagged) then
            acc1 ++ [Action.mk p .Flag]
          else acc1)
        []
      if ¬clicks.isEmpty then some ⟨clicks, some ⟨.BruteForce, empties⟩⟩
      else
        let clicks2 :=
          if states.all fun t => decide (t.remainingMines = 0) then
            (s.board.points.filter fun p =>
              decide (s.stateAt p = .Unknown) &&
                states.all fun t => decide (t.stateAt p ≠ .Flagged)).map
              fun p => Action.mk p .Reveal
          else []
        if ¬clicks2.isEmpty then some ⟨clicks2, some ⟨.BruteForceExhaustion, empties⟩⟩
        else none
  else none

/-- Mirrors `MiaSolver::solve`: the staged decision procedure. -/
def solve (s : GameState) : Option Move :=
  if s.status ≠ .Playing then none
  else
    match localPassR s with
    | some r => some r.1
    | none =>
      match propLoop (fuelBound s) (buildFlags s) with
      | .move m => some m
      | _ =>
        match exhaustStage s with
        | some m => some m
        | none => bruteStage s

/-! ## The external engine (lib.rs / minsweeper.rs, `SetMinsweeperGame` path)

The engine keeps an internal `GameState` (true cell types); the solver is fed
`hideMines` of it.  Fallible operations return `Option`: `none` models a Rust
panic, `some (ok, s)` models `Ok`/`Err` both carrying the resulting state. -/

/-- Mirrors `Board::hide_mines`: mask the type of every non-revealed cell. -/
def hideMines (s : GameState) : GameState :=
  { s with
    board := { s.board with
      grid := s.board.grid.map fun col => col.map fun c =>
        if c.cellState ≠ .Revealed then ⟨.Unknown, c.cellState⟩ else c } }

/-- Mirrors `check_interact`: Playing and in-bounds. -/
def checkInteract (s : GameState) (p : Point) : Bool :=
  decide (s.status = .Playing) && decide (p.1 < s.board.width) &&
    decide (p.2 < s.board.height)

/-- Mirrors `Board::has_won` (no revealed mine and no unrevealed safe cell);
stated over the declared board points. -/
def hasWon (b : Board) : Bool :=
  ! b.points.any fun p =>
    match b.cellAt p with
    | ⟨.Mine, .Revealed⟩ => true
    | ⟨.Safe _, st⟩ => decide (st ≠ .Revealed)
    | _ => false

/-- Mirrors `InternalMinsweeper::set_flagged`. -/
def setFlagged (s : GameState) (p : Point) (flagged : Bool) : Bool × GameState :=
  if ¬ checkInteract s p then (false, s)
  else if s.stateAt p = .Revealed then (false, s)
  else
    let rem :=
      if flagged ≠ decide (s.stateAt p = .Flagged) then
        if flagged then s.remainingMines - 1 else s.remainingMines + 1
      else s.remainingMines
    (true,
      { s.setCellState p (if flagged then .Flagged else .Unknown) with
        remainingMines := rem })

/-- Mirrors `Minsweeper::toggle_flag`: the argument `board[point].cell_state !=
Flagged` is evaluated before `set_flagged` runs `check_interact`, so an
out-of-bounds point panics (`none`) on the board index. -/
def toggleFlag (s : GameState) (p : Point) : Option (Bool × GameState) :=
  if p.1 < s.board.width ∧ p.2 < s.board.height then
    some (setFlagged s p (decide (s.stateAt p ≠ .Flagged)))
  else none

/-- The flood-fill loop of `reveal_empty`, with fuel; every flood insertion
accompanies a fresh reveal, so `width * height + 2` pops always suffice. -/
def revealEmptyLoop (w h : Nat) : Nat → List Point → Board → Board
  | 0, _, b => b
  | _ + 1, [], b => b
  | fuel + 1, p :: rest, b =>
    let step := (neighbours w h p).foldl
      (fun (acc : List Point × Board) q =>
        match acc.2.cellAt q with
        | ⟨.Safe n, st⟩ =>
          if st ≠ .Revealed then
            ((if n = 0 then acc.1 ++ [q] else acc.1),
              acc.2.setCell q ⟨.Safe n, .Revealed⟩)
          else acc
        | _ => acc)
      (rest, b)
    revealEmptyLoop w h fuel step.1 step.2

/-- Mirrors `InternalMinsweeper::reveal_empty`. -/
def revealEmpty (b : Board) (p : Point) : Board :=
  match b.cellAt p with
  | ⟨.Safe 0, st⟩ =>
    if st ≠ .Revealed then
      revealEmptyLoop b.width b.height (b.width * b.height + 2) [p]
        (b.setCell p ⟨.Safe 0, .Revealed⟩)
    else b
  | _ => b

/-- Mirrors `InternalMinsweeper::internal_reveal`; the `Unknown` type arm is
`unreachable!()` in the source (`none` models the panic). -/
def internalReveal (s : GameState) (p : Point) : Option (Bool × GameState) :=
  if s.stateAt p ≠ .Unknown then some (true, s)
  else
    match s.typeAt p with
    | .Safe n =>
      if n = 0 then some (true, { s with board := revealEmpty s.board p })
      else some (true, s.setCellState p .Revealed)
    | .Mine => some (false, s.setCellState p .Revealed)
    | .Unknown => none

/-- The shared epilogue of `reveal` and `clear_around`: loss on a revealed
mine, else the win check. -/
def winLossUpdate (ok : Bool) (s : GameState) : GameState :=
  if ¬ ok then { s with status := .Lost }
  else if hasWon s.board then { s with status := .Won }
  else s

/-- Mirrors `InternalMinsweeper::reveal` (the `SetMinsweeperGame` path). -/
def revealAct (s : GameState) (p : Point) : Option (Bool × GameState) :=
  if ¬ checkInteract s p then some (false, s)
  else (internalReveal s p).map fun r => (true, winLossUpdate r.1 r.2)

/-- Reveals every neighbour, accumulating the conjunction of successes. -/
def revealNbrsFold (s : GameState) (nbrs : List Point) :
    Option (Bool × GameState) :=
  nbrs.foldlM
    (fun (acc : Bool × GameState) q =>
      (internalReveal acc.2 q).map fun r => (acc.1 && r.1, r.2))
    (true, s)

/-- Mirrors `InternalMinsweeper::clear_around`. -/
def clearAround (s : GameState) (p : Point) : Option (Bool × GameState) :=
  if ¬ checkInteract s p then some (false, s)
  else
    match s.cellAt p with
    | ⟨.Safe number, .Revealed⟩ =>
      if (flaggedNbrs s p).length ≠ number then some (false, s)
      else (revealNbrsFold s (s.board.nbrs p)).map fun r =>
        (true, winLossUpdate r.1 r.2)
    | _ => some (false, s)

/-- Mirrors `Actionable::action` composed with `.into()` (both the `Ok` and the
`Err` state are kept); `none` models a panic. -/
def actionApply (s : GameState) (a : Action) : Option GameState :=
  match a.operation with
  | .Reveal => (revealAct s a.point).map fun r => r.2
  | .Chord => (clearAround s a.point).map fun r => r.2
  | .Flag => (toggleFlag s a.point).map fun r => r.2

/-- Applies every action of a move in sequence, as the `solve_game` loop does. -/
def applyMove (s : GameState) (m : Move) : Option GameState :=
  m.actions.foldlM (fun t a => actionApply t a) s

/-- The status-to-result mapping after the `solve_game` loop; the `Never` arm
is `unreachable!()` in the source (`none` models the panic). -/
def finalResult (s : GameState) : Option GameResult :=
  match s.status with
  | .Won => some .Won
  | .Lost => some .Lost
  | .Playing => some .Resigned
  | .Never => none

/-- Mirrors `Solver::solve_game` over the internal engine state, with fuel
counting loop iterations; `none` is fuel exhaustion or a panic. -/
def solveGame : Nat → GameState → Option GameResult
  | fuel, s =>
    if s.status = .Playing then
      match solve (hideMines s) with
      | none => finalResult s
      | some m =>
        match fuel with
        | 0 => none
        | f + 1 => (applyMove s m).bind fun t => solveGame f t
    else finalResult s

/-- One iteration of the `solve_game` loop: `none` when the loop would exit
or panic. -/
def loopStep (s : GameState) : Option GameState :=
  if s.status = .Playing then
    match solve (hideMines s) with
    | some m => applyMove s m
    | none => none
  else none

/-- The driving loop never returns, whatever iteration budget it is given. -/
def NonTerminating (s : GameState) : Prop := ∀ fuel, solveGame fuel s = none

/-! ## Specification-side notions (from the spec, not the source)

`Consistent s M` says the mine set `M` is a complete board assignment
consistent with the player-visible state `s` and the total mine count: masked
display of the completed board reproduces `s` (revealed `Safe n` cells are
non-mines with exactly `n` mine neighbours, revealed `Mine` cells are mines,
a revealed cell displaying `Unknown` is impossible), flags mark mines, and
the number of mines equals flagged cells plus `remaining_mines`. -/

def Fairness (s : GameState) : Prop :=
  ∀ p ∈ s.board.points, s.stateAt p ≠ .Revealed → s.typeAt p = .Unknown

instance (s : GameState) : Decidable (Fairness s) := by
  unfold Fairness; infer_instance

def NoRevealedMine (s : GameState) : Prop :=
  ∀ p ∈ s.board.points, ¬(s.stateAt p = .Revealed ∧ s.typeAt p = .Mine)

instance (s : GameState) : Decidable (NoRevealedMine s) := by
  unfold NoRevealedMine; infer_instance

def nbrsFinset (s : GameState) (p : Point) : Finset Point :=
  (s.board.nbrs p).toFinset

def flaggedFinset (s : GameState) : Finset Point :=
  (s.board.points.filter fun p => decide (s.stateAt p = .Flagged)).toFinset

def revealedTypeOk (s : GameState) (M : Finset Point) (p : Point) : Prop :=
  match s.typeAt p with
  | .Safe n => p ∉ M ∧ (nbrsFinset s p ∩ M).card = n
  | .Mine => p ∈ M
  | .Unknown => False

instance (s : GameState) (M : Finset Point) (p : Point) :
    Decidable (revealedTypeOk s M p) := by
  unfold revealedTypeOk; cases s.typeAt p <;> infer_instance

def Consistent (s : GameState) (M : Finset Point) : Prop :=
  (∀ q ∈ M, q ∈ s.board.points) ∧
  (∀ p ∈ s.board.points, s.stateAt p = .Flagged → p ∈ M) ∧
  (∀ p ∈ s.board.points, s.stateAt p = .Revealed → revealedTypeOk s M p) ∧
  (M.card : Int) = (flaggedFinset s).card + s.remainingMines

instance (s : GameState) (M : Finset Point) : Decidable (Consistent s M) := by
  unfold Consistent; infer_instance

/-- Soundness of a move against one mine assignment: reveals are never mines,
flags always are.  (Chord actions are not constrained by the claim.) -/
def MoveSound (M : Finset Point) (m : Move) : Prop :=
  ∀ a ∈ m.actions,
    (a.operation = .Reveal → a.point ∉ M) ∧ (a.operation = .Flag → a.point ∈ M)

instance (M : Finset Point) (m : Move) : Decidable (MoveSound M m) := by
  unfold MoveSound; infer_instance

/-! ## Concrete example states -/

/-- A revealed `Safe n` cell. -/
def sR (n : Nat) : Cell := ⟨.Safe n, .Revealed⟩

/-- A revealed mine cell. -/
def mR : Cell := ⟨.Mine, .Revealed⟩

/-- A hidden masked cell. -/
def uU : Cell := ⟨.Unknown, .Unknown⟩

/-- A flagged masked cell. -/
def uF : Cell := ⟨.Unknown, .Flagged⟩

/-- A flagged true mine (engine-internal). -/
def mF : Cell := ⟨.Mine, .Flagged⟩

/-- A hidden true mine (engine-internal). -/
def mU : Cell := ⟨.Mine, .Unknown⟩

/-- C1 counterexample board: 2-by-2, `(0,0)` shows a revealed 2, `(1,0)` a
revealed mine, both bottom cells hidden, two mines remaining. -/
def exC1 : GameState := ⟨.Playing, ⟨2, 2, [[sR 2, uU], [mR, uU]]⟩, 2⟩

/-- A complete assignment for `exC1`: mines at the revealed mine and `(0,1)`. -/
def exC1M : Finset Point := {(1, 0), (0, 1)}

/-- Witness board for containment deduction: 3-by-2, revealed 1 and 2 atop a
hidden row, with `(2,0)` flagged; constraints `(1, {A,B})` and `(1, {A,B,C})`. -/
def exC6W : GameState := ⟨.Playing, ⟨3, 2, [[sR 1, uU], [sR 2, uU], [uF, uU]]⟩, 1⟩

/-- A complete assignment for `exC6W`: the flagged cell and `A = (0,1)`. -/
def exC6WM : Finset Point := {(2, 0), (0, 1)}

/-- C6 counterexample board (4-by-3): contains the two claimed constraints but
another constraint pair fires first. -/
def exC6C : GameState :=
  ⟨.Playing, ⟨4, 3,
    [[sR 1, uU, sR 1], [sR 2, uU, uU], [sR 1, uU, sR 1], [sR 2, sR 2, sR 2]]⟩, 3⟩

/-- C2 counterexample board (4-by-2): the overlap pass subtracts a constraint
with larger required count. -/
def exC2 : GameState :=
  ⟨.Playing, ⟨4, 2, [[sR 1, uU], [sR 2, uU], [sR 2, uU], [sR 1, uU]]⟩, 2⟩

/-- C5 counterexample board (2-by-1): zero mines remaining but the chord rule
fires first. -/
def exC5 : GameState := ⟨.Playing, ⟨2, 1, [[sR 0], [uU]]⟩, 0⟩

/-- C5 witness board: a single hidden cell, zero mines remaining. -/
def exC5W : GameState := ⟨.Playing, ⟨1, 1, [[uU]]⟩, 0⟩

/-- C7 witness board (2-by-2): the chord rule fires at `(0,0)` and the
frontier search would also determine moves. -/
def exC7W : GameState := ⟨.Playing, ⟨2, 2, [[sR 1, uF], [uU, uU]]⟩, 1⟩

/-- C7 counterexample board (4-by-2): rule 2 fires at `(0,0)` although a
chord-valid cell and a frontier determination exist. -/
def exC7C : GameState :=
  ⟨.Playing, ⟨4, 2, [[sR 1, uU], [sR 2, sR 2], [sR 1, uF], [sR 1, uU]]⟩, 2⟩

/-- C8 counterexample board (2-by-2): rule 3 fires at `(0,0)` over two flagged
neighbours. -/
def exC8 : GameState := ⟨.Playing, ⟨2, 2, [[sR 1, uF], [sR 3, uF]]⟩, 1⟩

/-- C4 cycle state 1 (engine-internal): both bottom mines flagged. -/
def exC4a : GameState := ⟨.Playing, ⟨2, 2, [[sR 1, mF], [sR 2, mF]]⟩, 0⟩

/-- C4 cycle state 2 (engine-internal): both bottom mines unflagged. -/
def exC4b : GameState := ⟨.Playing, ⟨2, 2, [[sR 1, mU], [sR 2, mU]]⟩, 2⟩

/-- C9 board: a trivial 1-by-1 playing state. -/
def exC9 : GameState := ⟨.Playing, ⟨1, 1, [[uU]]⟩, 1⟩

/-- A finished (won) engine state for the C4 witness. -/
def exWon : GameState := ⟨.Won, ⟨1, 1, [[sR 0]]⟩, 1⟩

/-! ## Subtraction-underflow audit of the propagation engine

A mirror of the fixed-point loop that additionally records whether any
subtraction `A - B` it evaluates has `A.number < B.number` (which the `u8`
arithmetic of `Sub for &Flag` cannot represent: wrap in release builds, panic
in debug builds), separately for the contained pass and the overlap pass. -/

def checkContainedU (A : Flag) :
    List Flag → List Flag → Bool → Except Move (List Flag) × Bool
  | [], staged, uf => (.ok staged, uf)
  | B :: rest, staged, uf =>
    let uf1 := uf || decide (A.number < B.number)
    let R := A.sub B
    if R.points.isEmpty then checkContainedU A rest staged uf1
    else if R.number = 0 then (.error (revealMove R B.points), uf1)
    else if R.number = R.points.length then (.error (flagMove R B.points), uf1)
    else checkContainedU A rest (insertFlag staged R) uf1

def checkOverlapU (A : Flag) : List Flag → Bool → Option Move × Bool
  | [], uf => (none, uf)
  | B :: rest, uf =>
    let uf1 := uf || decide (A.number < B.number)
    let R := A.sub B
    if R.points.isEmpty then checkOverlapU A rest uf1
    else if R.number = R.points.length then (some (flagMove R B.points), uf1)
    else checkOverlapU A rest uf1

def passOneU (flags : List Flag) (A : Flag) (staged : List Flag) (cuf ouf : Bool) :
    Except Move (List Flag) × Bool × Bool :=
  match checkContainedU A (containedOf flags A) staged cuf with
  | (.error m, cuf1) => (.error m, cuf1, ouf)
  | (.ok staged1, cuf1) =>
    match checkOverlapU A (touchingOf flags A) ouf with
    | (some m, ouf1) => (.error m, cuf1, ouf1)
    | (none, ouf1) => (.ok staged1, cuf1, ouf1)

def passAllU (flags : List Flag) :
    List Flag → List Flag → Bool → Bool → Except Move (List Flag) × Bool × Bool
  | [], staged, cuf, ouf => (.ok staged, cuf, ouf)
  | A :: rest, staged, cuf, ouf =>
    match passOneU flags A staged cuf ouf with
    | (.error m, c, o) => (.error m, c, o)
    | (.ok staged1, c, o) => passAllU flags rest staged1 c o

def propLoopU : Nat → List Flag → Bool → Bool → PropOutcome × Bool × Bool
  | 0, _, cuf, ouf => (.fuelOut, cuf, ouf)
  | fuel + 1, flags, cuf, ouf =>
    match passAllU flags flags [] cuf ouf with
    | (.error m, c, o) => (.move m, c, o)
    | (.ok staged, c, o) =>
      let res := insertAll flags staged
      if res.2 then propLoopU fuel res.1 c o else (.done res.1, c, o)

/-- Whether the contained pass ever evaluates an underflowing subtraction on
state `s` before the loop finishes. -/
def containedUnderflow (s : GameState) : Bool :=
  (propLoopU (fuelBound s) (buildFlags s) false false).2.1

/-- Whether the overlap pass ever evaluates an underflowing subtraction on
state `s` before the loop finishes. -/
def overlapUnderflow (s : GameState) : Bool :=
  (propLoopU (fuelBound s) (buildFlags s) false false).2.2

/-! ## Auxiliary notions used by the statements and proofs -/

/-- A well-formed board: the grid has exactly the declared dimensions (the
Rust `Vec<Vec<Cell>>` has this by construction). -/
def WFBoard (b : Board) : Prop :=
  b.grid.length = b.width ∧ ∀ col ∈ b.grid, col.length = b.height

instance (b : Board) : Decidable (WFBoard b) := by unfold WFBoard; infer_instance

/-- Row-major strict order on points (row, then column). -/
def ptLt (a b : Point) : Prop := a.2 < b.2 ∨ (a.2 = b.2 ∧ a.1 < b.1)

instance : IsTrans Point ptLt where
  trans := by
    rintro ⟨ax, ay⟩ ⟨bx, bY⟩ ⟨cx, cy⟩ h1 h2
    rcases h1 with h1 | h1 <;> rcases h2 with h2 | h2 <;>
      simp only [ptLt] at * <;> omega

instance : IsAntisymm Point ptLt where
  antisymm := by
    rintro ⟨ax, ay⟩ ⟨bx, bY⟩ h1 h2
    rcases h1 with h1 | h1 <;> rcases h2 with h2 | h2 <;>
      simp only [ptLt] at * <;> omega

/-- A grid position that physically exists in the (possibly ragged) grid. -/
def SlotOk (b : Board) (p : Point) : Prop :=
  p.1 < b.grid.length ∧ p.2 < (b.grid.getD p.1 []).length

/-- Domain bound on a constraint: number at most `N`, candidates a row-major
sorted list inside `U`.  Used for the termination count of the loop. -/
def FlagDom (N : Nat) (U : Finset Point) (f : Flag) : Prop :=
  f.number ≤ N ∧ f.points.Pairwise ptLt ∧ ∀ q ∈ f.points, q ∈ U

/-- Exactness of a constraint against an assignment: candidates are hidden
board cells, duplicate-free, at most nine of them, and exactly `number` of
them are mines of `M`. -/
structure ExactFlag (s : GameState) (M : Finset Point) (f : Flag) : Prop where
  nodup : f.points.Nodup
  mem_board : ∀ q ∈ f.points, q ∈ s.board.points
  unknown : ∀ q ∈ f.points, s.stateAt q = .Unknown
  card_le : f.points.length ≤ 9
  exact : (f.points.toFinset ∩ M).card = f.number

/-- The invariant of a hypothetical state during the frontier search: relative
to the base state `s0`, exactly the points of `D` have been decided (flagged
when mines of `M`, marked revealed otherwise), the mine budget has paid for
the decided mines, and everything else is untouched. -/
structure DecidedInv (s0 : GameState) (M : Finset Point) (D : Finset Point)
    (s : GameState) : Prop where
  width_eq : s.board.width = s0.board.width
  height_eq : s.board.height = s0.board.height
  grid_len : s.board.grid.length = s0.board.grid.length
  col_len : ∀ i, (s.board.grid.getD i []).length = (s0.board.grid.getD i []).length
  type_eq : ∀ p, s.typeAt p = s0.typeAt p
  state_eq : ∀ p, s.stateAt p =
    if s0.stateAt p = .Unknown ∧ p ∈ D then
      (if p ∈ M then .Flagged else .Revealed)
    else s0.stateAt p
  decided_sub : ∀ q ∈ D, q ∈ s0.board.points ∧ s0.stateAt q = .Unknown
  rem_eq : s.remainingMines = s0.remainingMines - ((D ∩ M).card : Int)

/-- The C3 witness partner state: equal to `exC6W` but written differently. -/
def exC3b : GameState :=
  ⟨.Playing, ⟨3, 2, [[sR 1, uU]] ++ [[sR 2, uU], [uF, uU]]⟩, 1⟩

/-- The state reached from `exC8` by applying the rule-3 move: both flags
toggled off, two mines returned to the budget. -/
def exC8After : GameState := ⟨.Playing, ⟨2, 2, [[sR 1, uU], [sR 3, uU]]⟩, 3⟩

/-! ## Basic lemmas: the point grid -/

theorem mem_pointsOf {w h : Nat} {p : Point} :
    p ∈ pointsOf w h ↔ p.1 < w ∧ p.2 < h := by
  obtain ⟨x, y⟩ := p
  simp only [pointsOf, List.mem_flatMap, List.mem_map, List.mem_range, Prod.mk.injEq]
  constructor
  · rintro ⟨y1, hy, x1, hx, rfl, rfl⟩; exact ⟨hx, hy⟩
  · rintro ⟨hx, hy⟩; exact ⟨y, hy, x, hx, rfl, rfl⟩

theorem mem_neighbours {w h : Nat} {p q : Point} :
    q ∈ neighbours w h p ↔
      q ≠ p ∧ (p.1 - 1 ≤ q.1 ∧ q.1 ≤ min (w - 1) (p.1 + 1)) ∧
        (p.2 - 1 ≤ q.2 ∧ q.2 ≤ min (h - 1) (p.2 + 1)) := by
  obtain ⟨x, y⟩ := p; obtain ⟨a, b⟩ := q
  simp only [neighbours, List.mem_filter, List.mem_flatMap, List.mem_map,
    List.mem_range'_1, decide_eq_true_eq, Prod.mk.injEq]
  constructor
  · rintro ⟨⟨y1, hy, x1, hx, rfl, rfl⟩, hne⟩
    refine ⟨hne, ⟨hx.1, ?_⟩, hy.1, ?_⟩ <;> omega
  · rintro ⟨hne, ⟨hx1, hx2⟩, hy1, hy2⟩
    exact ⟨⟨b, ⟨hy1, by omega⟩, a, ⟨hx1, by omega⟩, rfl, rfl⟩, hne⟩

theorem nbrs_mem_points {w h : Nat} {p q : Point} (hp : p ∈ pointsOf w h)
    (hq : q ∈ neighbours w h p) : q ∈ pointsOf w h := by
  rw [mem_pointsOf] at hp ⊢
  rw [mem_neighbours] at hq
  omega

theorem neighbours_symm {w h : Nat} {p q : Point} (hp : p ∈ pointsOf w h)
    (hq : q ∈ neighbours w h p) : p ∈ neighbours w h q := by
  rw [mem_pointsOf] at hp
  rw [mem_neighbours] at hq ⊢
  refine ⟨by exact fun hpq => hq.1 hpq.symm, ?_, ?_⟩ <;> omega

theorem sorted_window (bx m : Nat) : ∀ (n a : Nat),
    (((List.range' a n).flatMap fun y =>
      (List.range' bx m).map fun x => ((x, y) : Point))).Pairwise ptLt
  | 0, a => by simp
  | n + 1, a => by
    rw [List.range'_succ, List.flatMap_cons, List.pairwise_append]
    refine ⟨?_, sorted_window bx m n (a + 1), ?_⟩
    · rw [List.pairwise_map]
      refine List.Pairwise.imp ?_ (List.pairwise_lt_range' bx m 1)
      intro u v huv
      exact Or.inr ⟨rfl, huv⟩
    · intro u hu v hv
      rw [List.mem_map] at hu
      rw [List.mem_flatMap] at hv
      obtain ⟨xu, _, rfl⟩ := hu
      obtain ⟨yv, hyv, hv⟩ := hv
      rw [List.mem_map] at hv
      obtain ⟨xv, _, rfl⟩ := hv
      rw [List.mem_range'_1] at hyv
      exact Or.inl (by omega)

theorem neighbours_pairwise {w h : Nat} {p : Point} :
    (neighbours w h p).Pairwise ptLt :=
  List.Pairwise.sublist (List.filter_sublist _) (sorted_window _ _ _ _)

theorem ptLt_irrefl (a : Point) : ¬ ptLt a a := by
  simp [ptLt]

theorem pairwise_ptLt_nodup {l : List Point} (hl : l.Pairwise ptLt) : l.Nodup :=
  hl.imp (fun hab => by rintro rfl; exact ptLt_irrefl _ hab)

theorem neighbours_nodup {w h : Nat} {p : Point} : (neighbours w h p).Nodup :=
  pairwise_ptLt_nodup neighbours_pairwise

theorem pointsOf_pairwise {w h : Nat} : (pointsOf w h).Pairwise ptLt := by
  have he : pointsOf w h = (List.range' 0 h).flatMap fun y =>
      (List.range' 0 w).map fun x => ((x, y) : Point) := by
    simp only [pointsOf, List.range_eq_range']
  rw [he]
  exact sorted_window 0 w h 0

theorem pointsOf_nodup {w h : Nat} : (pointsOf w h).Nodup :=
  pairwise_ptLt_nodup pointsOf_pairwise

theorem neighbours_length_le {w h : Nat} {p : Point} :
    (neighbours w h p).length ≤ 9 := by
  have h1 : (neighbours w h p).length ≤
      (((List.range' (p.2 - 1) (min (h - 1) (p.2 + 1) + 1 - (p.2 - 1))).flatMap fun y =>
        (List.range' (p.1 - 1) (min (w - 1) (p.1 + 1) + 1 - (p.1 - 1))).map fun x =>
          ((x, y) : Point))).length :=
    (List.filter_sublist _).length_le
  refine h1.trans ?_
  rw [List.length_flatMap]
  have h2 := List.sum_le_card_nsmul
    ((List.range' (p.2 - 1) (min (h - 1) (p.2 + 1) + 1 - (p.2 - 1))).map
      (List.length ∘ fun y =>
        (List.range' (p.1 - 1) (min (w - 1) (p.1 + 1) + 1 - (p.1 - 1))).map
          fun x => ((x, y) : Point))) 3 ?_
  · simp only [List.length_map, List.length_range', smul_eq_mul] at h2
    refine h2.trans ?_
    have h3 : min (h - 1) (p.2 + 1) + 1 - (p.2 - 1) ≤ 3 := by omega
    omega
  · intro x hx
    rw [List.mem_map] at hx
    obtain ⟨y, _, rfl⟩ := hx
    simp only [Function.comp_apply, List.length_map, List.length_range']
    omega

/-! ## Basic lemmas: cell reads and writes -/

theorem cellAt_of_not_slotOk {b : Board} {p : Point} (h : ¬ SlotOk b p) :
    b.cellAt p = Cell.EMPTY := by
  unfold SlotOk at h
  unfold Board.cellAt
  by_cases h1 : p.1 < b.grid.length
  · have h2 : (b.grid.getD p.1 []).length ≤ p.2 := by
      rcases Nat.lt_or_ge p.2 (b.grid.getD p.1 []).length with h2 | h2
      · exact absurd ⟨h1, h2⟩ h
      · exact h2
    exact List.getD_eq_default _ _ h2
  · rw [List.getD_eq_default _ _ (Nat.le_of_not_lt h1)]
    simp

theorem slotOk_of_cellAt_ne {b : Board} {p : Point} (h : b.cellAt p ≠ Cell.EMPTY) :
    SlotOk b p := by
  by_contra hc
  exact h (cellAt_of_not_slotOk hc)

theorem slotOk_of_state_ne {s : GameState} {p : Point}
    (h : s.stateAt p ≠ .Unknown) : SlotOk s.board p := by
  refine slotOk_of_cellAt_ne fun hc => h ?_
  unfold GameState.stateAt GameState.cellAt
  rw [hc]
  rfl

theorem getD_set {α : Type} (l : List α) (i j : Nat) (a d : α) :
    (l.set i a).getD j d = if i = j ∧ i < l.length then a else l.getD j d := by
  rw [List.getD_eq_getElem?_getD, List.getD_eq_getElem?_getD, List.getElem?_set]
  by_cases hij : i = j
  · subst hij
    by_cases hl : i < l.length
    · simp [hl]
    · rw [List.getElem?_eq_none (Nat.le_of_not_lt hl)]
      simp [hl]
  · simp [hij]

theorem cellAt_setCell_ne {b : Board} {p q : Point} (c : Cell) (h : q ≠ p) :
    (b.setCell p c).cellAt q = b.cellAt q := by
  obtain ⟨px, py⟩ := p
  obtain ⟨qx, qy⟩ := q
  unfold Board.setCell Board.cellAt
  simp only
  rw [getD_set]
  split_ifs with h1
  · obtain ⟨rfl, hlen⟩ := h1
    rw [getD_set]
    split_ifs with h2
    · exact absurd (by rw [h2.1]) h
    · rfl
  · rfl

theorem cellAt_setCell_self {b : Board} {p : Point} (c : Cell) (h : SlotOk b p) :
    (b.setCell p c).cellAt p = c := by
  obtain ⟨h1, h2⟩ := h
  unfold Board.setCell Board.cellAt
  simp only
  rw [getD_set, if_pos ⟨rfl, h1⟩, getD_set, if_pos ⟨rfl, h2⟩]

theorem setCell_grid_length {b : Board} {p : Point} (c : Cell) :
    (b.setCell p c).grid.length = b.grid.length := by
  unfold Board.setCell
  simp

theorem setCell_col_length {b : Board} {p : Point} (c : Cell) (i : Nat) :
    ((b.setCell p c).grid.getD i []).length = (b.grid.getD i []).length := by
  unfold Board.setCell
  simp only
  rw [getD_set]
  split_ifs with h1
  · obtain ⟨rfl, _⟩ := h1
    rw [List.length_set]
  · rfl

theorem slotOk_setCell {b : Board} {p q : Point} (c : Cell) :
    SlotOk (b.setCell p c) q ↔ SlotOk b q := by
  unfold SlotOk
  rw [setCell_grid_length, setCell_col_length]

theorem setCellState_cellAt_ne {s : GameState} {p q : Point} (cs : CellState)
    (h : q ≠ p) : (s.setCellState p cs).cellAt q = s.cellAt q :=
  cellAt_setCell_ne _ h

theorem setCellState_cellAt_self {s : GameState} {p : Point} (cs : CellState)
    (h : SlotOk s.board p) :
    (s.setCellState p cs).cellAt p = ⟨s.typeAt p, cs⟩ :=
  cellAt_setCell_self _ h

/-! ## Basic lemmas: rule scanning -/

theorem scanRules_eq_some {s : GameState} {r : Move × RuleTag} :
    ∀ {l : List Point}, scanRules s l = some r → ∃ p ∈ l, localRule s p = some r
  | [], h => by simp [scanRules] at h
  | p :: rest, h => by
    rw [scanRules] at h
    rcases hp : localRule s p with _ | r1
    · rw [hp] at h
      obtain ⟨q, hq, hq2⟩ := scanRules_eq_some h
      exact ⟨q, List.mem_cons_of_mem _ hq, hq2⟩
    · rw [hp] at h
      have hr : r1 = r := by simpa using h
      exact ⟨p, List.mem_cons_self p rest, by rw [hp, hr]⟩

theorem localRule_overFlag_inv {s : GameState} {p c : Point} {m : Move}
    (h : localRule s p = some (m, .overFlagAt c)) :
    c = p ∧
    m = ⟨(flaggedNbrs s p).map fun q => Action.mk q .Flag,
         some ⟨.FlagChord, candidateNbrs s p⟩⟩ ∧
    ∃ n, s.typeAt p = .Safe n ∧ n < (flaggedNbrs s p).length := by
  unfold localRule at h
  split at h
  · next n ht =>
    simp only at h
    split at h
    · simp at h
    · split at h
      · split at h
        · simp at h
        · simp only [Option.some.injEq, Prod.mk.injEq] at h
          exact absurd h.2 (by simp)
      · split at h
        · next h3 =>
          simp only [Option.some.injEq, Prod.mk.injEq, RuleTag.overFlagAt.injEq] at h
          exact ⟨h.2.symm, h.1.symm, n, ht, h3⟩
        · simp at h
  · simp at h

theorem localRule_chord_inv {s : GameState} {p c : Point} {m : Move}
    (h : localRule s p = some (m, .chordAt c)) :
    c = p ∧ m = ⟨[⟨p, .Chord⟩], some ⟨.Chord, flaggedNbrs s p⟩⟩ := by
  unfold localRule at h
  split at h
  · next n ht =>
    simp only at h
    split at h
    · simp only [Option.some.injEq, Prod.mk.injEq, RuleTag.chordAt.injEq] at h
      exact ⟨h.2.symm, h.1.symm⟩
    · split at h
      · split at h
        · simp at h
        · simp only [Option.some.injEq, Prod.mk.injEq] at h
          exact absurd h.2 (by simp)
      · split at h
        · simp only [Option.some.injEq, Prod.mk.injEq] at h
          exact absurd h.2 (by simp)
        · simp at h
  · simp at h

/-! ## C2: the contained pass never underflows -/

theorem ge_number_le {A B : Flag} (h : A.ge B = true) : B.number ≤ A.number := by
  unfold Flag.ge Flag.contains at h
  rw [Bool.or_eq_true, Bool.and_eq_true] at h
  rcases h with h | ⟨h1, _⟩
  · rw [decide_eq_true_eq] at h
    exact h ▸ le_refl _
  · exact of_decide_eq_true h1

theorem ge_points_sub {A B : Flag} (h : A.ge B = true) :
    ∀ q ∈ B.points, q ∈ A.points := by
  unfold Flag.ge Flag.contains at h
  rw [Bool.or_eq_true, Bool.and_eq_true] at h
  rcases h with h | ⟨_, h2⟩
  · rw [decide_eq_true_eq] at h
    exact h ▸ fun q hq => hq
  · exact of_decide_eq_true h2

theorem mem_containedOf {flags : List Flag} {A B : Flag}
    (h : B ∈ containedOf flags A) : A.ge B = true := by
  rw [containedOf, List.mem_filter] at h
  exact h.2

theorem checkContainedU_uf {A : Flag} :
    ∀ {l : List Flag} (staged : List Flag) (uf : Bool),
      (∀ B ∈ l, B.number ≤ A.number) → (checkContainedU A l staged uf).2 = uf
  | [], _, _, _ => rfl
  | B :: rest, staged, uf, hb => by
    have hle := hb B (List.mem_cons_self B rest)
    have h1 : decide (A.number < B.number) = false := by
      simpa using Nat.not_lt.mpr hle
    have hrest : ∀ X ∈ rest, X.number ≤ A.number := fun X hX =>
      hb X (List.mem_cons_of_mem _ hX)
    simp only [checkContainedU, h1, Bool.or_false]
    split_ifs
    · exact checkContainedU_uf staged uf hrest
    · rfl
    · rfl
    · exact checkContainedU_uf _ uf hrest

theorem passOneU_cuf (flags : List Flag) (A : Flag) (staged : List Flag)
    (cuf ouf : Bool) : (passOneU flags A staged cuf ouf).2.1 = cuf := by
  have hcl : ∀ B ∈ containedOf flags A, B.number ≤ A.number := fun B hB =>
    ge_number_le (mem_containedOf hB)
  have h1 := @checkContainedU_uf A (containedOf flags A) staged cuf hcl
  unfold passOneU
  split
  · next m c heq =>
    rw [heq] at h1
    simpa using h1
  · next staged1 c heq =>
    have hc : c = cuf := by rw [heq] at h1; simpa using h1
    subst hc
    split <;> rfl

theorem passAllU_cuf (flags : List Flag) :
    ∀ (l staged : List Flag) (cuf ouf : Bool),
      (passAllU flags l staged cuf ouf).2.1 = cuf
  | [], _, _, _ => rfl
  | A :: rest, staged, cuf, ouf => by
    have h1 := passOneU_cuf flags A staged cuf ouf
    rw [passAllU]
    split
    · next m c o heq =>
      rw [heq] at h1
      simpa using h1
    · next staged1 c o heq =>
      have hc : c = cuf := by rw [heq] at h1; simpa using h1
      subst hc
      exact passAllU_cuf flags rest staged1 _ o

theorem propLoopU_cuf : ∀ (fuel : Nat) (flags : List Flag) (cuf ouf : Bool),
    (propLoopU fuel flags cuf ouf).2.1 = cuf
  | 0, _, _, _ => rfl
  | fuel + 1, flags, cuf, ouf => by
    have h1 := passAllU_cuf flags flags [] cuf ouf
    rw [propLoopU]
    split
    · next m c o heq =>
      rw [heq] at h1
      simpa using h1
    · next staged c o heq =>
      have hc : c = cuf := by rw [heq] at h1; simpa using h1
      subst hc
      show (if (insertAll flags staged).2 = true then
          propLoopU fuel (insertAll flags staged).1 c o
        else (.done (insertAll flags staged).1, c, o)).2.1 = c
      split_ifs
      · exact propLoopU_cuf fuel _ _ o
      · rfl

/-- C2 (amended): with release-mode wrapping `u8` arithmetic the solver is
total, and every subtraction `A - B` evaluated by the contained pass of the
propagation engine does have `A.required ≥ B.required`; however the overlap
pass can evaluate a subtraction with `A.required < B.required` (see the
counterexample), where the `u8` subtraction wraps (and a debug build would
panic). -/
theorem c2_contained_subtractions_safe (s : GameState) :
    containedUnderflow s = false :=
  propLoopU_cuf (fuelBound s) (buildFlags s) false false

/-- C2 counterexample: on `exC2` the overlap pass evaluates a subtraction
whose left `required` is smaller than the right one, refuting the claim that
every evaluated subtraction has `A.required ≥ B.required`; `solve` still
returns a move under wrapping semantics. -/
theorem c2_counterexample :
    overlapUnderflow exC2 = true ∧ containedUnderflow exC2 = false ∧
      (solve exC2).isSome = true :=
  ⟨by decide, by decide, by decide⟩

/-! ## C9: out-of-bounds flag toggling panics -/

/-- C9: the engine's single action entry point does not return a failure
result for every illegal action: an out-of-bounds `Flag` action panics on the
board index inside `toggle_flag` (modelled `none`), because the cell state is
read before `check_interact` runs; by contrast out-of-bounds `Reveal` and
`Chord` actions, actions on non-Playing games, and wrongly-flagged chords all
return the unchanged state as claimed. -/
theorem c9_oob_flag_panics :
    actionApply exC9 ⟨(5, 5), .Flag⟩ = none ∧
    actionApply exC9 ⟨(5, 5), .Reveal⟩ = some exC9 ∧
    actionApply exC9 ⟨(5, 5), .Chord⟩ = some exC9 ∧
    actionApply ⟨.Won, exC9.board, 1⟩ ⟨(0, 0), .Reveal⟩ =
      some ⟨.Won, exC9.board, 1⟩ ∧
    actionApply ⟨.Won, exC9.board, 1⟩ ⟨(0, 0), .Flag⟩ =
      some ⟨.Won, exC9.board, 1⟩ ∧
    actionApply exC8 ⟨(0, 0), .Chord⟩ = some exC8 :=
  ⟨by decide, by decide, by decide, by decide, by decide, by decide⟩

/-! ## C5: the global exhaustion check -/

/-- C5 (amended): for every Playing state with `remaining_mines = 0` and at
least one Hidden cell, ON WHICH no local rule fires and the propagation
engine produces no move, `solve` returns the move revealing every Hidden
cell (earlier stages preempt the exhaustion check in general). -/
theorem c5_exhaustion_move (s : GameState)
    (hp : s.status = .Playing) (h0 : s.remainingMines = 0)
    (hl : localPassR s = none)
    (hm : (propLoop (fuelBound s) (buildFlags s)).isMove = false)
    (hh : s.board.points.filter (fun p => decide (s.stateAt p = .Unknown)) ≠ []) :
    solve s = some ⟨(s.board.points.filter fun p =>
        decide (s.stateAt p = .Unknown)).map (fun p => Action.mk p .Reveal),
      some ⟨.RegionDeductionFlag, []⟩⟩ := by
  have hex : exhaustStage s = some ⟨(s.board.points.filter fun p =>
      decide (s.stateAt p = .Unknown)).map (fun p => Action.mk p .Reveal),
      some ⟨.RegionDeductionFlag, []⟩⟩ := by
    unfold exhaustStage
    rw [if_pos h0]
    show (if ((s.board.points.filter fun p =>
        decide (s.stateAt p = .Unknown)).map (fun p => Action.mk p .Reveal)).isEmpty
          = true then none
      else some (⟨(s.board.points.filter fun p =>
          decide (s.stateAt p = .Unknown)).map (fun p => Action.mk p .Reveal),
        some ⟨.RegionDeductionFlag, []⟩⟩ : Move)) =
      some (⟨(s.board.points.filter fun p =>
          decide (s.stateAt p = .Unknown)).map (fun p => Action.mk p .Reveal),
        some ⟨.RegionDeductionFlag, []⟩⟩ : Move)
    rw [if_neg (by simp only [List.isEmpty_iff, List.map_eq_nil_iff]; exact hh)]
  unfold solve
  rw [if_neg (show ¬ s.status ≠ .Playing by simp [hp])]
  rw [hl]
  cases hpl : propLoop (fuelBound s) (buildFlags s) with
  | move m =>
    rw [hpl] at hm
    simp [PropOutcome.isMove] at hm
  | done fl =>
    rw [hex]
  | fuelOut =>
    rw [hex]

/-- C5 counterexample: `exC5` is Playing with zero remaining mines and a
Hidden cell at `(1,0)`, yet `solve` returns a single Chord move (the local
rules run first), not the move revealing every Hidden cell. -/
theorem c5_counterexample :
    exC5.status = .Playing ∧ exC5.remainingMines = 0 ∧
    exC5.stateAt (1, 0) = .Unknown ∧ (1, 0) ∈ exC5.board.points ∧
    solve exC5 = some ⟨[⟨(0, 0), .Chord⟩], some ⟨.Chord, []⟩⟩ ∧
    (⟨[⟨(0, 0), .Chord⟩], some ⟨.Chord, []⟩⟩ : Move).actions ≠
      [⟨(1, 0), .Reveal⟩] :=
  ⟨by decide, by decide, by decide, by decide, by decide, by decide⟩

/-- C5 witness: on the one-cell board `exC5W` the hypotheses of the amended
claim hold and `solve` reveals the hidden cell. -/
theorem c5_witness :
    exC5W.status = .Playing ∧ exC5W.remainingMines = 0 ∧
    localPassR exC5W = none ∧
    (propLoop (fuelBound exC5W) (buildFlags exC5W)).isMove = false ∧
    exC5W.board.points.filter (fun p => decide (exC5W.stateAt p = .Unknown)) ≠ [] ∧
    solve exC5W = some ⟨[⟨(0, 0), .Reveal⟩], some ⟨.RegionDeductionFlag, []⟩⟩ := by
  refine ⟨by decide, by decide, by decide, by decide, by decide, ?_⟩
  have h := c5_exhaustion_move exC5W (by decide) (by decide) (by decide)
    (by decide) (by decide)
  rw [h]
  decide

/-! ## C8: the rule-3 move toggles flags off -/

theorem setCellState_width {s : GameState} {p : Point} {cs : CellState} :
    (s.setCellState p cs).board.width = s.board.width := rfl

theorem setCellState_height {s : GameState} {p : Point} {cs : CellState} :
    (s.setCellState p cs).board.height = s.board.height := rfl

theorem toggleFlag_flagged {s : GameState} {q : Point}
    (hp : s.status = .Playing) (hw : q.1 < s.board.width)
    (hh : q.2 < s.board.height) (hf : s.stateAt q = .Flagged) :
    actionApply s ⟨q, .Flag⟩ = some
      { s.setCellState q .Unknown with remainingMines := s.remainingMines + 1 } := by
  have hci : checkInteract s q = true := by
    unfold checkInteract
    simp [hp, hw, hh]
  unfold actionApply toggleFlag
  rw [if_pos ⟨hw, hh⟩]
  unfold setFlagged
  rw [if_neg (by simp [hci])]
  rw [if_neg (by simp [hf])]
  rw [hf]
  simp only [Option.map_some]
  rfl

theorem applyMove_toggle_off (r : Option Reason) :
    ∀ (l : List Point) (s : GameState), s.status = .Playing → l.Nodup →
      (∀ q ∈ l, q.1 < s.board.width ∧ q.2 < s.board.height ∧
        s.stateAt q = .Flagged) →
      ∃ t, applyMove s ⟨l.map fun q => Action.mk q .Flag, r⟩ = some t ∧
        t.status = s.status ∧
        t.board.width = s.board.width ∧ t.board.height = s.board.height ∧
        (∀ q ∈ l, t.stateAt q = .Unknown) ∧
        (∀ q, q ∉ l → t.cellAt q = s.cellAt q) ∧
        t.remainingMines = s.remainingMines + l.length
  | [], s, _, _, _ => ⟨s, rfl, rfl, rfl, rfl, by simp, fun q _ => rfl, by simp⟩
  | q :: rest, s, hp, hnd, hcond => by
    obtain ⟨hw, hh, hf⟩ := hcond q (List.mem_cons_self q rest)
    have hslot : SlotOk s.board q := slotOk_of_state_ne (by rw [hf]; simp)
    set s1 : GameState :=
      { s.setCellState q .Unknown with remainingMines := s.remainingMines + 1 }
      with hs1
    have hstep := toggleFlag_flagged hp hw hh hf
    have hstate1 : s1.stateAt q = .Unknown := by
      show ((s.setCellState q .Unknown).cellAt q).cellState = .Unknown
      rw [setCellState_cellAt_self _ hslot]
    have huntouched : ∀ x, x ≠ q → s1.cellAt x = s.cellAt x := fun x hx =>
      setCellState_cellAt_ne _ hx
    have hnd1 : rest.Nodup := hnd.of_cons
    have hqrest : q ∉ rest := (List.nodup_cons.mp hnd).1
    have hcond1 : ∀ x ∈ rest, x.1 < s1.board.width ∧ x.2 < s1.board.height ∧
        s1.stateAt x = .Flagged := by
      intro x hx
      obtain ⟨hw1, hh1, hf1⟩ := hcond x (List.mem_cons_of_mem _ hx)
      have hxq : x ≠ q := fun he => hqrest (he ▸ hx)
      refine ⟨hw1, hh1, ?_⟩
      show (s1.cellAt x).cellState = .Flagged
      rw [huntouched x hxq]
      exact hf1
    obtain ⟨t, ht, hts, htw, hth, htst, htc, htr⟩ :=
      applyMove_toggle_off r rest s1 hp hnd1 hcond1
    refine ⟨t, ?_, hts, htw, hth, ?_, ?_, ?_⟩
    · show ((Action.mk q .Flag :: rest.map fun x => Action.mk x .Flag).foldlM
        (fun u a => actionApply u a) s) = some t
      rw [List.foldlM_cons, hstep]
      exact ht
    · intro x hx
      rcases List.mem_cons.mp hx with rfl | hx
      · rw [show t.stateAt x = (t.cellAt x).cellState from rfl, htc x hqrest]
        exact hstate1
      · exact htst x hx
    · intro x hx
      rw [htc x fun hc => hx (List.mem_cons_of_mem _ hc),
        huntouched x fun he => hx (he ▸ List.mem_cons_self q rest)]
    · rw [htr]
      show s.remainingMines + 1 + (rest.length : Int) = _
      simp only [List.length_cons]
      push_cast
      ring

/-- C8 (amended): when the first firing local rule is rule 3 at cell `c`, the
move consists of Flag actions at the already-Flagged neighbours of `c`; but
applying the move through the engine's action entry point is NOT a no-op:
`toggle_flag` turns every one of those cells back to Hidden and increments
`remaining_mines` once per action, changing the player-visible state. -/
theorem c8_rule3_unflags (s : GameState) (m : Move) (c : Point)
    (hp : s.status = .Playing)
    (hl : localPassR s = some (m, .overFlagAt c)) :
    m.actions = (flaggedNbrs s c).map (fun q => Action.mk q .Flag) ∧
    m.actions ≠ [] ∧
    (applyMove s m).isSome = true ∧
    (∀ q ∈ flaggedNbrs s c, ((applyMove s m).getD s).stateAt q = .Unknown) ∧
    ((applyMove s m).getD s).remainingMines =
      s.remainingMines + (flaggedNbrs s c).length ∧
    hideMines ((applyMove s m).getD s) ≠ hideMines s := by
  obtain ⟨p, hpmem, hrule⟩ := scanRules_eq_some hl
  obtain ⟨rfl, hm, n, htype, hlen⟩ := localRule_overFlag_inv hrule
  have hfl : (flaggedNbrs s c).length ≠ 0 := by omega
  have hnd : (flaggedNbrs s c).Nodup :=
    List.Nodup.filter _ neighbours_nodup
  have hcond : ∀ q ∈ flaggedNbrs s c, q.1 < s.board.width ∧
      q.2 < s.board.height ∧ s.stateAt q = .Flagged := by
    intro q hq
    rw [flaggedNbrs, List.mem_filter] at hq
    have hqb := nbrs_mem_points hpmem hq.1
    rw [mem_pointsOf] at hqb
    exact ⟨hqb.1, hqb.2, of_decide_eq_true hq.2⟩
  obtain ⟨t, ht, hts, htw, hth, htst, htc, htr⟩ :=
    applyMove_toggle_off m.reason (flaggedNbrs s c) s hp hnd hcond
  have hmm : m = ⟨(flaggedNbrs s c).map fun q => Action.mk q .Flag, m.reason⟩ := by
    rw [hm]
  have ht' : applyMove s m = some t := by rw [hmm]; exact ht
  refine ⟨by rw [hm], ?_, ?_, ?_, ?_, ?_⟩
  · rw [hm]
    simp only [ne_eq, List.map_eq_nil_iff]
    intro hc
    rw [hc] at hfl
    exact hfl rfl
  · rw [ht']
    rfl
  · intro q hq
    rw [ht']
    exact htst q hq
  · rw [ht']
    exact htr
  · rw [ht']
    intro he
    have hrem : (hideMines t).remainingMines = (hideMines s).remainingMines :=
      congrArg GameState.remainingMines he
    have hq1 : (hideMines t).remainingMines = t.remainingMines := rfl
    have hq2 : (hideMines s).remainingMines = s.remainingMines := rfl
    rw [hq1, hq2, htr] at hrem
    omega

/-- C8 counterexample: on `exC8` rule 3 fires first and emits Flag actions at
the two already-Flagged cells, but applying them through the engine unflags
both cells (remaining mines 1 becomes 3): the player-visible state changes,
so the move is not a no-op. -/
theorem c8_counterexample :
    localPassR exC8 = some (⟨[⟨(0, 1), .Flag⟩, ⟨(1, 1), .Flag⟩],
      some ⟨.FlagChord, [(0, 1), (1, 1)]⟩⟩, .overFlagAt (0, 0)) ∧
    applyMove exC8 ⟨[⟨(0, 1), .Flag⟩, ⟨(1, 1), .Flag⟩],
      some ⟨.FlagChord, [(0, 1), (1, 1)]⟩⟩ = some exC8After ∧
    hideMines exC8After ≠ hideMines exC8 :=
  ⟨by decide, by decide, by decide⟩

/-- C8 witness: the amended claim applied to the concrete state `exC8`. -/
theorem c8_witness :
    exC8.status = .Playing ∧
    localPassR exC8 = some (⟨[⟨(0, 1), .Flag⟩, ⟨(1, 1), .Flag⟩],
      some ⟨.FlagChord, [(0, 1), (1, 1)]⟩⟩, .overFlagAt (0, 0)) ∧
    ((⟨[⟨(0, 1), .Flag⟩, ⟨(1, 1), .Flag⟩],
        some ⟨.FlagChord, [(0, 1), (1, 1)]⟩⟩ : Move).actions =
      (flaggedNbrs exC8 (0, 0)).map (fun q => Action.mk q .Flag) ∧
      (⟨[⟨(0, 1), .Flag⟩, ⟨(1, 1), .Flag⟩],
        some ⟨.FlagChord, [(0, 1), (1, 1)]⟩⟩ : Move).actions ≠ [] ∧
      (applyMove exC8 ⟨[⟨(0, 1), .Flag⟩, ⟨(1, 1), .Flag⟩],
        some ⟨.FlagChord, [(0, 1), (1, 1)]⟩⟩).isSome = true ∧
      (∀ q ∈ flaggedNbrs exC8 (0, 0),
        ((applyMove exC8 ⟨[⟨(0, 1), .Flag⟩, ⟨(1, 1), .Flag⟩],
          some ⟨.FlagChord, [(0, 1), (1, 1)]⟩⟩).getD exC8).stateAt q = .Unknown) ∧
      ((applyMove exC8 ⟨[⟨(0, 1), .Flag⟩, ⟨(1, 1), .Flag⟩],
          some ⟨.FlagChord, [(0, 1), (1, 1)]⟩⟩).getD exC8).remainingMines =
        exC8.remainingMines + (flaggedNbrs exC8 (0, 0)).length ∧
      hideMines ((applyMove exC8 ⟨[⟨(0, 1), .Flag⟩, ⟨(1, 1), .Flag⟩],
          some ⟨.FlagChord, [(0, 1), (1, 1)]⟩⟩).getD exC8) ≠ hideMines exC8) :=
  ⟨by decide, by decide,
    c8_rule3_unflags exC8 _ (0, 0) (by decide) (by decide)⟩

/-! ## C4: the driving loop -/

theorem solveGame_of_loopStep {s t : GameState} (h : loopStep s = some t) :
    solveGame 0 s = none ∧ ∀ f, solveGame (f + 1) s = solveGame f t := by
  unfold loopStep at h
  split_ifs at h with hp
  · cases hsol : solve (hideMines s) with
    | none => rw [hsol] at h; simp at h
    | some m =>
      rw [hsol] at h
      constructor
      · unfold solveGame
        rw [if_pos hp, hsol]
      · intro f
        have hh : applyMove s m = some t := h
        conv_lhs => rw [solveGame.eq_def]
        simp only [hp, hsol, hh, if_true, Option.some_bind]

/-- C4 (amended): whenever the `solve_game` loop exits, the result mapping
holds: status Won maps to Won, Lost to Lost, and a Playing state on which
`solve` returns no move maps to Resigned.  Termination itself fails in
general: see the counterexample, a reachable two-state cycle in which rule 3
unflags two cells and rule 2 reflags them forever. -/
theorem c4_result_mapping (s : GameState) (fuel : Nat) :
    (s.status = .Won → solveGame fuel s = some .Won) ∧
    (s.status = .Lost → solveGame fuel s = some .Lost) ∧
    (s.status = .Playing → solve (hideMines s) = none →
      solveGame fuel s = some .Resigned) := by
  refine ⟨?_, ?_, ?_⟩
  · intro hw
    unfold solveGame
    rw [if_neg (by simp [hw])]
    unfold finalResult
    rw [hw]
  · intro hlo
    unfold solveGame
    rw [if_neg (by simp [hlo])]
    unfold finalResult
    rw [hlo]
  · intro hp hn
    unfold solveGame
    rw [if_pos hp, hn]
    unfold finalResult
    rw [hp]

/-- C4 counterexample: from the engine state `exC4a` (a 2-by-2 board whose
two mines are flagged, with a revealed 1 and a revealed 2 above them),
`solve_game` with the Mia solver never terminates: rule 3 toggles both flags
off, rule 2 puts them back, and the state repeats forever. -/
theorem c4_counterexample : NonTerminating exC4a := by
  have h1 : loopStep exC4a = some exC4b := by decide
  have h2 : loopStep exC4b = some exC4a := by decide
  have key : ∀ n, solveGame n exC4a = none ∧ solveGame n exC4b = none := by
    intro n
    induction n with
    | zero => exact ⟨(solveGame_of_loopStep h1).1, (solveGame_of_loopStep h2).1⟩
    | succ k ih =>
      refine ⟨?_, ?_⟩
      · rw [(solveGame_of_loopStep h1).2 k]
        exact ih.2
      · rw [(solveGame_of_loopStep h2).2 k]
        exact ih.1
  intro fuel
  exact (key fuel).1

/-- C4 witness: the result mapping applied to concrete final states. -/
theorem c4_witness :
    exWon.status = .Won ∧ solveGame 0 exWon = some .Won ∧
    (⟨.Lost, exWon.board, 1⟩ : GameState).status = .Lost ∧
    solveGame 0 ⟨.Lost, exWon.board, 1⟩ = some .Lost ∧
    exC9.status = .Playing ∧ solve (hideMines exC9) = none ∧
    solveGame 0 exC9 = some .Resigned :=
  ⟨by decide, (c4_result_mapping exWon 0).1 (by decide),
    by decide, (c4_result_mapping ⟨.Lost, exWon.board, 1⟩ 0).2.1 (by decide),
    by decide, by decide,
    (c4_result_mapping exC9 0).2.2 (by decide) (by decide)⟩

/-! ## C3: no-cheat noninterference -/

theorem board_ext {b1 b2 : Board} (h1 : b1.width = b2.width)
    (h2 : b1.height = b2.height) (h3 : b1.grid = b2.grid) : b1 = b2 := by
  cases b1
  cases b2
  cases h1
  cases h2
  cases h3
  rfl

theorem gamestate_ext {s1 s2 : GameState} (h1 : s1.status = s2.status)
    (h2 : s1.board = s2.board) (h3 : s1.remainingMines = s2.remainingMines) :
    s1 = s2 := by
  cases s1
  cases s2
  cases h1
  cases h2
  cases h3
  rfl

/-- C3: `solve` is identical on any two fair states that agree on status,
remaining mines, board dimensions, every cell state, and the types of
revealed cells: under the fairness invariant such states are in fact equal,
so the solver cannot depend on any masked cell type. -/
theorem c3_no_cheat (s1 s2 : GameState)
    (hw1 : WFBoard s1.board) (hw2 : WFBoard s2.board)
    (hf1 : Fairness s1) (hf2 : Fairness s2)
    (hst : s1.status = s2.status) (hrm : s1.remainingMines = s2.remainingMines)
    (hdw : s1.board.width = s2.board.width)
    (hdh : s1.board.height = s2.board.height)
    (hcs : ∀ p ∈ s1.board.points, s1.stateAt p = s2.stateAt p)
    (hrt : ∀ p ∈ s1.board.points, s1.stateAt p = .Revealed →
      s1.typeAt p = s2.typeAt p) :
    solve s1 = solve s2 := by
  have hcell : ∀ p ∈ s1.board.points, s1.cellAt p = s2.cellAt p := by
    intro p hp
    have hstate := hcs p hp
    have e1 : s1.cellAt p = ⟨s1.typeAt p, s1.stateAt p⟩ := rfl
    have e2 : s2.cellAt p = ⟨s2.typeAt p, s2.stateAt p⟩ := rfl
    by_cases hrev : s1.stateAt p = .Revealed
    · rw [e1, e2, hrt p hp hrev, hstate]
    · have hp2 : p ∈ s2.board.points := by
        show p ∈ pointsOf s2.board.width s2.board.height
        rw [← hdw, ← hdh]
        exact hp
      have ht1 := hf1 p hp hrev
      have ht2 := hf2 p hp2 (by rw [← hstate]; exact hrev)
      rw [e1, e2, ht1, ht2, hstate]
  have hg : s1.board.grid = s2.board.grid := by
    apply List.ext_getElem
    · rw [hw1.1, hw2.1, hdw]
    · intro i hi1 hi2
      apply List.ext_getElem
      · rw [hw1.2 _ (List.getElem_mem hi1), hw2.2 _ (List.getElem_mem hi2), hdh]
      · intro j hj1 hj2
        have hx1 : i < s1.board.width := by rw [← hw1.1]; exact hi1
        have hy1 : j < s1.board.height := by
          rw [← hw1.2 _ (List.getElem_mem hi1)]
          exact hj1
        have hpmem : ((i, j) : Point) ∈ s1.board.points :=
          mem_pointsOf.mpr ⟨hx1, hy1⟩
        have hc := hcell _ hpmem
        have e1 : s1.board.cellAt (i, j) = s1.board.grid[i][j] := by
          unfold Board.cellAt
          rw [List.getD_eq_getElem _ _ hi1, List.getD_eq_getElem _ _ hj1]
        have e2 : s2.board.cellAt (i, j) = s2.board.grid[i][j] := by
          unfold Board.cellAt
          rw [List.getD_eq_getElem _ _ hi2, List.getD_eq_getElem _ _ hj2]
        rw [← e1, ← e2]
        exact hc
  have hs : s1 = s2 := gamestate_ext hst (board_ext hdw hdh hg) hrm
  rw [hs]

/-- C3 witness: two syntactically different but equal fair states. -/
theorem c3_witness :
    WFBoard exC6W.board ∧ WFBoard exC3b.board ∧
    Fairness exC6W ∧ Fairness exC3b ∧
    exC6W.status = exC3b.status ∧ exC6W.remainingMines = exC3b.remainingMines ∧
    exC6W.board.width = exC3b.board.width ∧
    exC6W.board.height = exC3b.board.height ∧
    (∀ p ∈ exC6W.board.points, exC6W.stateAt p = exC3b.stateAt p) ∧
    (∀ p ∈ exC6W.board.points, exC6W.stateAt p = .Revealed →
      exC6W.typeAt p = exC3b.typeAt p) ∧
    solve exC6W = solve exC3b :=
  ⟨by decide, by decide, by decide, by decide, by decide, by decide, by decide,
    by decide, by decide, by decide,
    c3_no_cheat exC6W exC3b (by decide) (by decide) (by decide) (by decide)
      (by decide) (by decide) (by decide) (by decide) (by decide) (by decide)⟩

/-! ## C7: local rules precede the frontier search -/

theorem mem_clicks_foldl (states : List GameState) :
    ∀ (l : List Point) (acc : List Action) (a : Action),
      a ∈ l.foldl (fun acc p =>
        if states.all fun t => decide (t.stateAt p = .Flagged) then
          (if states.all fun t => decide (t.stateAt p ≠ .Flagged) then
            acc ++ [Action.mk p .Reveal]
          else acc) ++ [Action.mk p .Flag]
        else
          if states.all fun t => decide (t.stateAt p ≠ .Flagged) then
            acc ++ [Action.mk p .Reveal]
          else acc) acc →
      a ∈ acc ∨ a.operation = .Reveal ∨ a.operation = .Flag
  | [], _, _, h => .inl h
  | p :: rest, acc, a, h => by
    rw [List.foldl_cons] at h
    rcases mem_clicks_foldl states rest _ a h with hmem | hop
    · split_ifs at hmem <;>
        try simp only [List.mem_append, List.mem_singleton] at hmem
      · rcases hmem with (hm | rfl) | rfl
        · exact .inl hm
        · exact .inr (.inl rfl)
        · exact .inr (.inr rfl)
      · rcases hmem with hm | rfl
        · exact .inl hm
        · exact .inr (.inr rfl)
      · rcases hmem with hm | rfl
        · exact .inl hm
        · exact .inr (.inl rfl)
      · exact .inl hmem
    · exact .inr hop

theorem bruteStage_ops {s : GameState} {m : Move} (h : bruteStage s = some m) :
    ∀ a ∈ m.actions, a.operation = .Reveal ∨ a.operation = .Flag := by
  intro a ha
  simp only [bruteStage] at h
  split_ifs at h
  all_goals rw [Option.some_inj] at h
  all_goals rw [← h] at ha
  all_goals
    first
    | exact absurd ha (List.not_mem_nil a)
    | exact (mem_clicks_foldl (bruteForce (adjacentsOf s) s) (emptiesOf s) [] a
        ha).elim (fun hmem => absurd hmem (List.not_mem_nil a)) id
    | (simp only [List.mem_map] at ha
       try (obtain ⟨q, _, rfl⟩ := ha
            exact .inl rfl))

/-- C7 (amended): when the Chord rule at cell `c` is the first local rule to
fire — earlier cells in row-major order fire nothing — and the frontier
search would also produce a move, `solve` returns the Chord move at `c`, and
that move is never the frontier-search move (frontier moves contain no Chord
action). -/
theorem c7_chord_priority (s : GameState) (m : Move) (c : Point)
    (hp : s.status = .Playing)
    (hl : localPassR s = some (m, .chordAt c))
    (hb : (bruteStage s).isSome = true) :
    solve s = some m ∧ m.actions = [⟨c, .Chord⟩] ∧ bruteStage s ≠ some m := by
  obtain ⟨p, hpmem, hrule⟩ := scanRules_eq_some hl
  obtain ⟨rfl, hm⟩ := localRule_chord_inv hrule
  refine ⟨?_, by rw [hm], ?_⟩
  · unfold solve
    rw [if_neg (by simp [hp]), hl]
  · intro hbs
    have hops := bruteStage_ops hbs (⟨c, .Chord⟩)
      (by rw [hm]; exact List.mem_singleton.mpr rfl)
    rcases hops with hop | hop <;> simp at hop

/-- C7 witness: on `exC7W` the chord fires at `(0,0)` while the frontier
search has a valid determination, and the chord move is returned. -/
theorem c7_witness :
    exC7W.status = .Playing ∧
    localPassR exC7W =
      some (⟨[⟨(0, 0), .Chord⟩], some ⟨.Chord, [(0, 1)]⟩⟩, .chordAt (0, 0)) ∧
    (bruteStage exC7W).isSome = true ∧
    (solve exC7W = some ⟨[⟨(0, 0), .Chord⟩], some ⟨.Chord, [(0, 1)]⟩⟩ ∧
      (⟨[⟨(0, 0), .Chord⟩], some ⟨.Chord, [(0, 1)]⟩⟩ : Move).actions =
        [⟨(0, 0), .Chord⟩] ∧
      bruteStage exC7W ≠ some ⟨[⟨(0, 0), .Chord⟩], some ⟨.Chord, [(0, 1)]⟩⟩) :=
  ⟨by decide, by decide, by decide,
    c7_chord_priority exC7W _ (0, 0) (by decide) (by decide) (by decide)⟩

/-- C7 counterexample: on `exC7C` the chord conditions hold at `(2,0)` (the
first chord-valid cell in row-major order: `(0,0)` and `(1,0)` have fewer
flagged neighbours than their numbers) and the frontier search has a valid
determination, yet `solve` returns the rule-2 flag move fired at `(0,0)`,
not the Chord move of `(2,0)`: the claim as stated is false. -/
theorem c7_counterexample :
    exC7C.status = .Playing ∧
    exC7C.typeAt (2, 0) = .Safe 1 ∧ (flaggedNbrs exC7C (2, 0)).length = 1 ∧
    (candidateNbrs exC7C (2, 0)).length = 2 ∧
    exC7C.typeAt (0, 0) = .Safe 1 ∧ (flaggedNbrs exC7C (0, 0)).length = 0 ∧
    exC7C.typeAt (1, 0) = .Safe 2 ∧ (flaggedNbrs exC7C (1, 0)).length = 1 ∧
    (bruteStage exC7C).isSome = true ∧
    solve exC7C = some ⟨[⟨(0, 1), .Flag⟩], some ⟨.FlagChord, [(0, 1)]⟩⟩ ∧
    (⟨[⟨(0, 1), .Flag⟩], some ⟨.FlagChord, [(0, 1)]⟩⟩ : Move).actions ≠
      [⟨(2, 0), .Chord⟩] :=
  ⟨by decide, by decide, by decide, by decide, by decide, by decide, by decide,
    by decide, by decide, by decide, by decide⟩

/-- C6 (amended): when no local rule fires and the built constraint collection
is exactly the two constraints `{required 1, candidates {A,B}}` and
`{required 1, candidates {A,B,C}}` (with `C` a fresh point), the propagation
engine derives the remainder `{required 0, candidates {C}}` and `solve`
returns the single action `Reveal C` with Reason citing the contained
constraint's candidates `{A,B}`.  (The original claim asserted this whenever
the collection merely *contains* the two constraints; `exC6C` refutes that.) -/
theorem c6_region_deduction (s : GameState) (A B C : Point)
    (hp : s.status = .Playing) (hl : localPassR s = none)
    (hCA : C ≠ A) (hCB : C ≠ B)
    (hbf : buildFlags s = [⟨1, [A, B]⟩, ⟨1, [A, B, C]⟩]) :
    solve s = some ⟨[⟨C, .Reveal⟩], some ⟨.RegionDeductionReveal, [A, B]⟩⟩ := by
  have hge11 : Flag.ge ⟨1, [A, B]⟩ ⟨1, [A, B]⟩ = true := by
    simp [Flag.ge]
  have hge12 : Flag.ge ⟨1, [A, B]⟩ ⟨1, [A, B, C]⟩ = false := by
    simp [Flag.ge, Flag.contains, hCA, hCB]
  have hge21 : Flag.ge ⟨1, [A, B, C]⟩ ⟨1, [A, B]⟩ = true := by
    simp [Flag.ge, Flag.contains]
  have hge22 : Flag.ge ⟨1, [A, B, C]⟩ ⟨1, [A, B, C]⟩ = true := by
    simp [Flag.ge]
  have hsub11 : Flag.sub ⟨1, [A, B]⟩ ⟨1, [A, B]⟩ = ⟨0, []⟩ := by
    simp [Flag.sub, u8sub]
  have hsub12 : Flag.sub ⟨1, [A, B]⟩ ⟨1, [A, B, C]⟩ = ⟨0, []⟩ := by
    simp [Flag.sub, u8sub]
  have hsub21 : Flag.sub ⟨1, [A, B, C]⟩ ⟨1, [A, B]⟩ = ⟨0, [C]⟩ := by
    simp [Flag.sub, u8sub, hCA, hCB]
  have hcont1 : containedOf [⟨1, [A, B]⟩, ⟨1, [A, B, C]⟩] ⟨1, [A, B]⟩ =
      [⟨1, [A, B]⟩] := by
    simp [containedOf, hge11, hge12]
  have hcont2 : containedOf [⟨1, [A, B]⟩, ⟨1, [A, B, C]⟩] ⟨1, [A, B, C]⟩ =
      [⟨1, [A, B]⟩, ⟨1, [A, B, C]⟩] := by
    simp [containedOf, hge21, hge22]
  have htouch1 : touchingOf [⟨1, [A, B]⟩, ⟨1, [A, B, C]⟩] ⟨1, [A, B]⟩ =
      [⟨1, [A, B]⟩, ⟨1, [A, B, C]⟩] := by
    simp [touchingOf]
  have hcc1 : checkContained ⟨1, [A, B]⟩ [⟨1, [A, B]⟩] [] = .ok [] := by
    simp [checkContained, hsub11]
  have hco1 : checkOverlap ⟨1, [A, B]⟩ [⟨1, [A, B]⟩, ⟨1, [A, B, C]⟩] = none := by
    simp [checkOverlap, hsub11, hsub12]
  have hp1 : passOne [⟨1, [A, B]⟩, ⟨1, [A, B, C]⟩] ⟨1, [A, B]⟩ [] = .ok [] := by
    rw [passOne, hcont1, hcc1, htouch1, hco1]
  have hcc2 : checkContained ⟨1, [A, B, C]⟩ [⟨1, [A, B]⟩, ⟨1, [A, B, C]⟩] [] =
      .error ⟨[⟨C, .Reveal⟩], some ⟨.RegionDeductionReveal, [A, B]⟩⟩ := by
    simp [checkContained, hsub21, revealMove]
  have hp2 : passOne [⟨1, [A, B]⟩, ⟨1, [A, B, C]⟩] ⟨1, [A, B, C]⟩ [] =
      .error ⟨[⟨C, .Reveal⟩], some ⟨.RegionDeductionReveal, [A, B]⟩⟩ := by
    rw [passOne, hcont2, hcc2]
  have hpa : passAll [⟨1, [A, B]⟩, ⟨1, [A, B, C]⟩] [⟨1, [A, B]⟩, ⟨1, [A, B, C]⟩]
      [] = .error ⟨[⟨C, .Reveal⟩], some ⟨.RegionDeductionReveal, [A, B]⟩⟩ := by
    simp only [passAll, hp1, hp2]
  have hfuel : ∃ n, fuelBound s = n + 1 := ⟨_, rfl⟩
  obtain ⟨n, hn⟩ := hfuel
  have hloop : propLoop (fuelBound s) (buildFlags s) =
      .move ⟨[⟨C, .Reveal⟩], some ⟨.RegionDeductionReveal, [A, B]⟩⟩ := by
    rw [hbf, hn, propLoop, hpa]
  unfold solve
  rw [if_neg (by simp [hp]), hl, hloop]

/-- C6 counterexample: the built collection of `exC6C` contains both claimed
constraints (`A = (0,1)`, `B = (1,1)`, `C = (1,2)`) and no local rule fires,
yet `solve` returns a Flag move at `(2,1)` — a different region deduction
fires first — and emits no `Reveal (1,2)` action at all. -/
theorem c6_counterexample :
    exC6C.status = .Playing ∧
    localPassR exC6C = none ∧
    (⟨1, [(0, 1), (1, 1)]⟩ : Flag) ∈ buildFlags exC6C ∧
    (⟨1, [(0, 1), (1, 1), (1, 2)]⟩ : Flag) ∈ buildFlags exC6C ∧
    solve exC6C =
      some ⟨[⟨(2, 1), .Flag⟩], some ⟨.RegionDeductionFlag, [(0, 1), (1, 1)]⟩⟩ ∧
    (⟨(1, 2), .Reveal⟩ : Action) ∉ ([⟨(2, 1), .Flag⟩] : List Action) := by
  refine ⟨rfl, by decide, by decide, by decide, by decide, by decide⟩

/-- C6 witness: on `exC6W` the constraint collection is exactly the claimed
pair with `A = (0,1)`, `B = (1,1)`, `C = (2,1)`, and `solve` reveals `C`. -/
theorem c6_witness :
    exC6W.status = .Playing ∧ localPassR exC6W = none ∧
    ((2, 1) : Point) ≠ (0, 1) ∧ ((2, 1) : Point) ≠ (1, 1) ∧
    buildFlags exC6W = [⟨1, [(0, 1), (1, 1)]⟩, ⟨1, [(0, 1), (1, 1), (2, 1)]⟩] ∧
    solve exC6W =
      some ⟨[⟨(2, 1), .Reveal⟩], some ⟨.RegionDeductionReveal, [(0, 1), (1, 1)]⟩⟩ :=
  ⟨rfl, by decide, by decide, by decide, by decide,
    c6_region_deduction exC6W (0, 1) (1, 1) (2, 1) rfl (by decide) (by decide)
      (by decide) (by decide)⟩

/-! ## C10: termination of the propagation loop -/

theorem insertFlag_mem {l : List Flag} {g f : Flag} (h : f ∈ insertFlag l g) :
    f ∈ l ∨ f = g := by
  unfold insertFlag at h
  split_ifs at h
  · exact .inl h
  · rcases List.mem_append.mp h with h | h
    · exact .inl h
    · exact .inr (List.mem_singleton.mp h)

theorem insertFlag_nodup {l : List Flag} {g : Flag} (h : l.Nodup) :
    (insertFlag l g).Nodup := by
  unfold insertFlag
  split_ifs with hg
  · exact h
  · refine List.Nodup.append h (List.nodup_singleton g) ?_
    intro a ha hag
    rw [List.mem_singleton] at hag
    exact hg (hag ▸ ha)

theorem insertFlag_length_ge (l : List Flag) (g : Flag) :
    l.length ≤ (insertFlag l g).length := by
  unfold insertFlag
  split_ifs
  · exact le_refl _
  · simp

theorem insertFlag_length_new {l : List Flag} {g : Flag} (h : g ∉ l) :
    (insertFlag l g).length = l.length + 1 := by
  unfold insertFlag
  rw [if_neg h]
  simp

theorem insertAll_mem : ∀ (staged flags : List Flag) (f : Flag),
    f ∈ (insertAll flags staged).1 → f ∈ flags ∨ f ∈ staged
  | [], _, _, h => .inl h
  | g :: rest, flags, f, h => by
    simp only [insertAll] at h
    rcases insertAll_mem rest (insertFlag flags g) f h with h1 | h1
    · rcases insertFlag_mem h1 with h2 | h2
      · exact .inl h2
      · exact .inr (h2 ▸ List.mem_cons_self g rest)
    · exact .inr (List.mem_cons_of_mem g h1)

theorem insertAll_nodup : ∀ (staged flags : List Flag), flags.Nodup →
    (insertAll flags staged).1.Nodup
  | [], _, h => h
  | g :: rest, flags, h => by
    simp only [insertAll]
    exact insertAll_nodup rest _ (insertFlag_nodup h)

theorem insertAll_length : ∀ (staged flags : List Flag),
    flags.length ≤ (insertAll flags staged).1.length
  | [], _ => le_refl _
  | g :: rest, flags => by
    simp only [insertAll]
    exact le_trans (insertFlag_length_ge flags g) (insertAll_length rest _)

theorem insertAll_changed : ∀ (staged flags : List Flag),
    (insertAll flags staged).2 = true →
    flags.length + 1 ≤ (insertAll flags staged).1.length
  | [], flags, h => by simp [insertAll] at h
  | g :: rest, flags, h => by
    simp only [insertAll, Bool.or_eq_true, decide_eq_true_eq] at h
    simp only [insertAll]
    rcases h with hnew | hrec
    · calc flags.length + 1 = (insertFlag flags g).length :=
            (insertFlag_length_new hnew).symm
        _ ≤ _ := insertAll_length rest _
    · exact le_trans (Nat.succ_le_succ (insertFlag_length_ge flags g))
        (insertAll_changed rest _ hrec)

theorem flags_card_bound (N : Nat) (U : Finset Point) (flags : List Flag)
    (hnd : flags.Nodup) (hdom : ∀ f ∈ flags, FlagDom N U f) :
    flags.length ≤ (N + 1) * 2 ^ U.card := by
  have hinj : ∀ x ∈ flags, ∀ y ∈ flags,
      (fun f : Flag => (f.number, f.points.toFinset)) x =
        (fun f : Flag => (f.number, f.points.toFinset)) y → x = y := by
    intro x hx y hy hxy
    simp only [Prod.mk.injEq] at hxy
    have hxs := (hdom x hx).2.1
    have hys := (hdom y hy).2.1
    have hperm : x.points.Perm y.points :=
      List.perm_of_nodup_nodup_toFinset_eq (pairwise_ptLt_nodup hxs)
        (pairwise_ptLt_nodup hys) hxy.2
    have hpts : x.points = y.points := List.eq_of_perm_of_sorted hperm hxs hys
    obtain ⟨xn, xp⟩ := x
    obtain ⟨yn, yp⟩ := y
    simp only at hpts
    rw [Flag.mk.injEq]
    exact ⟨hxy.1, hpts⟩
  have hmapnd : (flags.map fun f : Flag => (f.number, f.points.toFinset)).Nodup :=
    hnd.map_on hinj
  have hsub : (flags.map fun f : Flag => (f.number, f.points.toFinset)).toFinset ⊆
      Finset.range (N + 1) ×ˢ U.powerset := by
    intro x hx
    rw [List.mem_toFinset, List.mem_map] at hx
    obtain ⟨f, hf, rfl⟩ := hx
    rw [Finset.mem_product, Finset.mem_range, Finset.mem_powerset]
    refine ⟨Nat.lt_succ_of_le (hdom f hf).1, ?_⟩
    intro q hq
    rw [List.mem_toFinset] at hq
    exact (hdom f hf).2.2 q hq
  have hlen : flags.length =
      (flags.map fun f : Flag => (f.number, f.points.toFinset)).length := by simp
  rw [hlen, ← List.toFinset_card_of_nodup hmapnd]
  calc ((flags.map fun f : Flag => (f.number, f.points.toFinset)).toFinset).card
      ≤ (Finset.range (N + 1) ×ˢ U.powerset).card := Finset.card_le_card hsub
    _ = (N + 1) * 2 ^ U.card := by
        rw [Finset.card_product, Finset.card_range, Finset.card_powerset]

theorem flagDom_sub {N : Nat} {U : Finset Point} {A B : Flag}
    (hA : FlagDom N U A) (hle : B.number ≤ A.number) : FlagDom N U (A.sub B) := by
  obtain ⟨h1, h2, h3⟩ := hA
  refine ⟨?_, ?_, ?_⟩
  · show u8sub A.number B.number ≤ N
    unfold u8sub
    rw [if_pos hle]
    omega
  · exact List.Pairwise.sublist (List.filter_sublist _) h2
  · intro q hq
    exact h3 q (List.mem_of_mem_filter hq)

theorem checkContained_ok_dom {N : Nat} {U : Finset Point} {A : Flag}
    (hA : FlagDom N U A) :
    ∀ (l staged : List Flag), (∀ B ∈ l, B.number ≤ A.number) →
      (∀ f ∈ staged, FlagDom N U f) →
      ∀ st, checkContained A l staged = .ok st →
      ∀ f ∈ st, FlagDom N U f
  | [], staged, _, hstaged, st, h, f, hf => by
    simp only [checkContained] at h
    cases h
    exact hstaged f hf
  | B :: rest, staged, hl, hstaged, st, h, f, hf => by
    have hBle := hl B (List.mem_cons_self B rest)
    have hrest : ∀ X ∈ rest, X.number ≤ A.number := fun X hX =>
      hl X (List.mem_cons_of_mem _ hX)
    simp only [checkContained] at h
    split_ifs at h
    all_goals first
      | exact Except.noConfusion h
      | exact checkContained_ok_dom hA rest staged hrest hstaged st h f hf
      | (refine checkContained_ok_dom hA rest _ hrest ?_ st h f hf
         intro g hg
         rcases insertFlag_mem hg with h1 | h1
         · exact hstaged g h1
         · exact h1 ▸ flagDom_sub hA hBle)

theorem passOne_ok_dom {N : Nat} {U : Finset Point} {flags : List Flag}
    {A : Flag} {staged st : List Flag}
    (hA : FlagDom N U A) (hstaged : ∀ f ∈ staged, FlagDom N U f)
    (h : passOne flags A staged = .ok st) : ∀ f ∈ st, FlagDom N U f := by
  unfold passOne at h
  split at h
  · exact Except.noConfusion h
  · rename_i staged1 heq
    split at h
    · exact Except.noConfusion h
    · cases h
      exact checkContained_ok_dom hA (containedOf flags A) staged
        (fun B hB => ge_number_le (mem_containedOf hB)) hstaged _ heq

theorem passAll_ok_dom {N : Nat} {U : Finset Point} {flags : List Flag} :
    ∀ (l staged : List Flag), (∀ A ∈ l, FlagDom N U A) →
      (∀ f ∈ staged, FlagDom N U f) →
      ∀ st, passAll flags l staged = .ok st → ∀ f ∈ st, FlagDom N U f
  | [], staged, _, hstaged, st, h, f, hf => by
    simp only [passAll] at h
    cases h
    exact hstaged f hf
  | A :: rest, staged, hl, hstaged, st, h, f, hf => by
    simp only [passAll] at h
    split at h
    · exact Except.noConfusion h
    · rename_i staged1 heq
      exact passAll_ok_dom rest staged1
        (fun X hX => hl X (List.mem_cons_of_mem _ hX))
        (passOne_ok_dom (hl A (List.mem_cons_self A rest)) hstaged heq)
        st h f hf

theorem propLoop_no_fuelOut (N : Nat) (U : Finset Point) :
    ∀ (fuel : Nat) (flags : List Flag), flags.Nodup →
      (∀ f ∈ flags, FlagDom N U f) →
      (N + 1) * 2 ^ U.card + 1 ≤ flags.length + fuel →
      propLoop fuel flags ≠ .fuelOut
  | 0, flags, hnd, hdom, hbound => by
    have h1 := flags_card_bound N U flags hnd hdom
    intro _
    omega
  | fuel + 1, flags, hnd, hdom, hbound => by
    simp only [propLoop]
    split
    · exact fun h => PropOutcome.noConfusion h
    · rename_i staged heq
      split_ifs with hch
      · refine propLoop_no_fuelOut N U fuel (insertAll flags staged).1
          (insertAll_nodup staged flags hnd) ?_ ?_
        · intro f hf
          rcases insertAll_mem staged flags f hf with h1 | h1
          · exact hdom f h1
          · exact passAll_ok_dom flags [] hdom
              (fun g hg => absurd hg (List.not_mem_nil g)) staged heq f h1
        · have h2 := insertAll_changed staged flags hch
          omega
      · exact fun h => PropOutcome.noConfusion h

theorem constraintAt_points {s : GameState} {p : Point} {g : Flag}
    (h : constraintAt s p = some g) : g.points = unknownNbrs s p := by
  simp only [constraintAt] at h
  split at h
  · split_ifs at h
    rw [Option.some_inj] at h
    rw [← h]
  · exact Option.noConfusion h

theorem unknownNbrs_dom {s : GameState} {p : Point} (hp : p ∈ s.board.points) :
    (unknownNbrs s p).Pairwise ptLt ∧
      ∀ q ∈ unknownNbrs s p, q ∈ s.board.points := by
  constructor
  · exact List.Pairwise.sublist (List.filter_sublist _) neighbours_pairwise
  · intro q hq
    exact nbrs_mem_points hp (List.mem_of_mem_filter hq)

theorem buildFlags_foldl_nodup (s : GameState) :
    ∀ (ps : List Point) (acc : List Flag), acc.Nodup →
      (ps.foldl (fun acc p =>
        match constraintAt s p with
        | some f => insertFlag acc f
        | none => acc) acc).Nodup
  | [], _, h => h
  | p :: rest, acc, h => by
    simp only [List.foldl_cons]
    refine buildFlags_foldl_nodup s rest _ ?_
    split
    · exact insertFlag_nodup h
    · exact h

theorem buildFlags_foldl_dom (s : GameState) (U : Finset Point)
    (hU : ∀ q ∈ s.board.points, q ∈ U) :
    ∀ (ps : List Point) (acc : List Flag),
      (∀ p ∈ ps, p ∈ s.board.points) →
      (∀ f ∈ acc, f.points.Pairwise ptLt ∧ ∀ q ∈ f.points, q ∈ U) →
      ∀ f ∈ (ps.foldl (fun acc p =>
        match constraintAt s p with
        | some g => insertFlag acc g
        | none => acc) acc),
        f.points.Pairwise ptLt ∧ ∀ q ∈ f.points, q ∈ U
  | [], _, _, hacc, f, hf => hacc f hf
  | p :: rest, acc, hps, hacc, f, hf => by
    simp only [List.foldl_cons] at hf
    refine buildFlags_foldl_dom s U hU rest _
      (fun q hq => hps q (List.mem_cons_of_mem _ hq)) ?_ f hf
    intro g hg
    split at hg
    · next c hc =>
      rcases insertFlag_mem hg with h1 | h1
      · exact hacc g h1
      · subst h1
        have hpts := constraintAt_points hc
        have hdom := unknownNbrs_dom (hps p (List.mem_cons_self p rest))
        rw [hpts]
        exact ⟨hdom.1, fun q hq => hU q (hdom.2 q hq)⟩
    · exact hacc g hg

theorem foldl_max_acc_le : ∀ (l : List Flag) (acc : Nat),
    acc ≤ l.foldl (fun a g => max a g.number) acc
  | [], _ => le_refl _
  | g :: rest, acc => by
    simp only [List.foldl_cons]
    exact le_trans (Nat.le_max_left _ _) (foldl_max_acc_le rest _)

theorem le_foldl_max : ∀ (l : List Flag) (acc : Nat) (f : Flag), f ∈ l →
    f.number ≤ l.foldl (fun a g => max a g.number) acc
  | [], _, f, hf => absurd hf (List.not_mem_nil f)
  | g :: rest, acc, f, hf => by
    simp only [List.foldl_cons]
    rcases List.mem_cons.mp hf with rfl | hf1
    · exact le_trans (Nat.le_max_right _ _) (foldl_max_acc_le rest _)
    · exact le_foldl_max rest _ f hf1

theorem le_maxNumber {l : List Flag} {f : Flag} (hf : f ∈ l) :
    f.number ≤ maxNumber l :=
  le_foldl_max l 0 f hf

theorem pointsOf_length {w h : Nat} : (pointsOf w h).length = w * h := by
  simp only [pointsOf, List.length_flatMap, Function.comp_def, List.length_map,
    List.length_range]
  rw [List.map_const', List.sum_replicate, List.length_range, smul_eq_mul,
    Nat.mul_comm]

/-- C10: the propagation fixed-point loop of `MiaSolver::solve` terminates on
every input game state: at the fuel budget `fuelBound s` — one more than the
number of distinct constraints expressible over the board — the loop always
ends in a move or a stable collection, never by fuel exhaustion.  (The
frontier enumeration of `brute_force` / `recursive_get_flag_combinations` is
structurally recursive in this development, mirroring its strictly increasing
index and the strictly shrinking mines-to-flag count.) -/
theorem c10_solver_terminates (s : GameState) :
    propLoop (fuelBound s) (buildFlags s) ≠ PropOutcome.fuelOut := by
  have hnd : (buildFlags s).Nodup :=
    buildFlags_foldl_nodup s s.board.points [] List.nodup_nil
  have hdom : ∀ f ∈ buildFlags s,
      FlagDom (maxNumber (buildFlags s)) s.board.points.toFinset f := by
    intro f hf
    have h1 := buildFlags_foldl_dom s s.board.points.toFinset
      (fun q hq => List.mem_toFinset.mpr hq) s.board.points []
      (fun p hp => hp) (fun g hg => absurd hg (List.not_mem_nil g)) f hf
    exact ⟨le_maxNumber hf, h1.1, h1.2⟩
  refine propLoop_no_fuelOut (maxNumber (buildFlags s)) s.board.points.toFinset
    (fuelBound s) (buildFlags s) hnd hdom ?_
  have hcard : s.board.points.toFinset.card ≤
      s.board.width * s.board.height := by
    refine le_trans (List.toFinset_card_le _) ?_
    rw [show s.board.points = pointsOf s.board.width s.board.height from rfl,
      pointsOf_length]
  have hpow : (2 : Nat) ^ s.board.points.toFinset.card ≤
      2 ^ (s.board.width * s.board.height) :=
    Nat.pow_le_pow_right (by norm_num) hcard
  have hmul : (maxNumber (buildFlags s) + 1) * 2 ^ s.board.points.toFinset.card ≤
      (maxNumber (buildFlags s) + 1) * 2 ^ (s.board.width * s.board.height) :=
    Nat.mul_le_mul_left _ hpow
  simp only [fuelBound]
  omega

/-! ## C1: soundness of the solver -/

theorem decidedInv_refl (s : GameState) (M : Finset Point) : DecidedInv s M ∅ s := by
  refine ⟨rfl, rfl, rfl, fun i => rfl, fun p => rfl, ?_, ?_, ?_⟩
  · intro p
    simp
  · intro q hq
    simp at hq
  · simp

theorem nbrs_eq_of_inv {s t : GameState} {M D : Finset Point}
    (hinv : DecidedInv s M D t) (q : Point) :
    t.board.nbrs q = s.board.nbrs q := by
  unfold Board.nbrs
  rw [hinv.width_eq, hinv.height_eq]

theorem revealed_of_safe {s : GameState} (hF : Fairness s) {p : Point}
    (hp : p ∈ s.board.points) {n : Nat} (h : s.typeAt p = .Safe n) :
    s.stateAt p = .Revealed := by
  by_contra hc
  have h2 := hF p hp hc
  rw [h] at h2
  exact CellType.noConfusion h2

theorem safe_cell_count {s : GameState} {M : Finset Point} (hF : Fairness s)
    (hC : Consistent s M) {p : Point} {n : Nat} (hp : p ∈ s.board.points)
    (h : s.typeAt p = .Safe n) : p ∉ M ∧ (nbrsFinset s p ∩ M).card = n := by
  have hrev := revealed_of_safe hF hp h
  have hok := hC.2.2.1 p hp hrev
  unfold revealedTypeOk at hok
  rw [h] at hok
  exact hok

theorem tstate_flagged_mem_M {s t : GameState} {M D : Finset Point} {p : Point}
    (hinv : DecidedInv s M D t) (hC : Consistent s M)
    (hp : p ∈ s.board.points) (h : t.stateAt p = .Flagged) : p ∈ M := by
  have hs := hinv.state_eq p
  rw [h] at hs
  by_cases hd : s.stateAt p = .Unknown ∧ p ∈ D
  · rw [if_pos hd] at hs
    by_cases hm : p ∈ M
    · exact hm
    · rw [if_neg hm] at hs
      exact absurd hs (by simp)
  · rw [if_neg hd] at hs
    exact hC.2.1 p hp hs.symm

theorem tstate_revealed_not_M {s t : GameState} {M D : Finset Point} {p : Point}
    (hinv : DecidedInv s M D t) (hC : Consistent s M) (hNRM : NoRevealedMine s)
    (hp : p ∈ s.board.points) (h : t.stateAt p = .Revealed) : p ∉ M := by
  have hs := hinv.state_eq p
  rw [h] at hs
  by_cases hd : s.stateAt p = .Unknown ∧ p ∈ D
  · rw [if_pos hd] at hs
    by_cases hm : p ∈ M
    · rw [if_pos hm] at hs
      exact absurd hs (by simp)
    · exact hm
  · rw [if_neg hd] at hs
    have hok := hC.2.2.1 p hp hs.symm
    unfold revealedTypeOk at hok
    rcases htyp : s.typeAt p with n | _ | _
    · rw [htyp] at hok
      exact hok.1
    · exact absurd ⟨hs.symm, htyp⟩ (hNRM p hp)
    · rw [htyp] at hok
      exact hok.elim
  
theorem tstate_unknown_iff {s t : GameState} {M D : Finset Point} {p : Point}
    (hinv : DecidedInv s M D t) :
    t.stateAt p = .Unknown ↔ (s.stateAt p = .Unknown ∧ p ∉ D) := by
  have hs := hinv.state_eq p
  by_cases hd : s.stateAt p = .Unknown ∧ p ∈ D
  · rw [if_pos hd] at hs
    constructor
    · intro h
      rw [h] at hs
      by_cases hm : p ∈ M
      · rw [if_pos hm] at hs
        exact absurd hs (by simp)
      · rw [if_neg hm] at hs
        exact absurd hs (by simp)
    · intro h
      exact absurd hd.2 h.2
  · rw [if_neg hd] at hs
    rw [hs]
    constructor
    · intro h
      refine ⟨h, fun hD => hd ⟨h, hD⟩⟩
    · exact fun h => h.1

theorem mtf_split {s t : GameState} {M D : Finset Point} {q : Point}
    (hinv : DecidedInv s M D t) (hC : Consistent s M) (hNRM : NoRevealedMine s)
    (hq : q ∈ s.board.points) {n : Nat}
    (hnum : (nbrsFinset s q ∩ M).card = n) :
    (flaggedNbrs t q).length ≤ n ∧
      ((unknownNbrs t q).toFinset ∩ M).card = n - (flaggedNbrs t q).length := by
  have hnbrs := nbrs_eq_of_inv hinv q
  have hmemb : ∀ p ∈ s.board.nbrs q, p ∈ s.board.points := fun p hp =>
    nbrs_mem_points hq hp
  have hndf : (flaggedNbrs t q).Nodup := by
    unfold flaggedNbrs
    rw [hnbrs]
    exact List.Nodup.filter _ neighbours_nodup
  have hsplit : nbrsFinset s q ∩ M =
      (flaggedNbrs t q).toFinset ∪ ((unknownNbrs t q).toFinset ∩ M) := by
    ext p
    simp only [Finset.mem_inter, Finset.mem_union, nbrsFinset, List.mem_toFinset,
      flaggedNbrs, unknownNbrs, hnbrs, List.mem_filter, decide_eq_true_eq]
    constructor
    · rintro ⟨hpn, hpM⟩
      rcases hst : t.stateAt p with _ | _ | _
      · exact .inr ⟨⟨hpn, rfl⟩, hpM⟩
      · exact absurd hpM (tstate_revealed_not_M hinv hC hNRM (hmemb p hpn) hst)
      · exact .inl ⟨hpn, rfl⟩
    · rintro (⟨hpn, hst⟩ | ⟨⟨hpn, hst⟩, hpM⟩)
      · exact ⟨hpn, tstate_flagged_mem_M hinv hC (hmemb p hpn) hst⟩
      · exact ⟨hpn, hpM⟩
  have hdisj : Disjoint ((flaggedNbrs t q).toFinset)
      ((unknownNbrs t q).toFinset ∩ M) := by
    rw [Finset.disjoint_left]
    intro p hpf hpu
    rw [List.mem_toFinset, flaggedNbrs, List.mem_filter, decide_eq_true_eq] at hpf
    rw [Finset.mem_inter, List.mem_toFinset, unknownNbrs, List.mem_filter,
      decide_eq_true_eq] at hpu
    rw [hpf.2] at hpu
    exact CellState.noConfusion hpu.1.2
  have hcard : n = (flaggedNbrs t q).length +
      ((unknownNbrs t q).toFinset ∩ M).card := by
    rw [← hnum, hsplit, Finset.card_union_of_disjoint hdisj,
      List.toFinset_card_of_nodup hndf]
  omega

theorem cand_split (s : GameState) : ∀ l : List Point,
    (l.filter fun q => decide (s.stateAt q = .Flagged ∨ s.stateAt q = .Unknown)).length =
      (l.filter fun q => decide (s.stateAt q = .Flagged)).length +
        (l.filter fun q => decide (s.stateAt q = .Unknown)).length
  | [] => rfl
  | q :: rest => by
    have ih := cand_split s rest
    simp only [List.filter_cons]
    by_cases h1 : s.stateAt q = .Flagged
    · rw [if_pos (by simp [h1]), if_pos (by simp [h1]), if_neg (by simp [h1])]
      simp only [List.length_cons]
      omega
    · by_cases h2 : s.stateAt q = .Unknown
      · rw [if_pos (by simp [h2]), if_neg (by simp [h1]), if_pos (by simp [h2])]
        simp only [List.length_cons]
        omega
      · rw [if_neg (by simp [h1, h2]), if_neg (by simp [h1]),
          if_neg (by simp [h2])]
        omega

theorem unknownNbrs_all_mem_M {s : GameState} {M : Finset Point} {p : Point}
    {n : Nat} (hF : Fairness s) (hC : Consistent s M) (hNRM : NoRevealedMine s)
    (hp : p ∈ s.board.points) (htyp : s.typeAt p = .Safe n)
    (hn : n = (candidateNbrs s p).length) :
    ∀ q ∈ unknownNbrs s p, q ∈ M := by
  have hcount := mtf_split (decidedInv_refl s M) hC hNRM hp
    (safe_cell_count hF hC hp htyp).2
  have hcand : (candidateNbrs s p).length =
      (flaggedNbrs s p).length + (unknownNbrs s p).length := by
    unfold candidateNbrs flaggedNbrs unknownNbrs
    exact cand_split s _
  have hnd : (unknownNbrs s p).Nodup := by
    unfold unknownNbrs
    exact List.Nodup.filter _ neighbours_nodup
  have hucard : (unknownNbrs s p).toFinset.card = (unknownNbrs s p).length :=
    List.toFinset_card_of_nodup hnd
  have hle : (unknownNbrs s p).toFinset.card ≤
      ((unknownNbrs s p).toFinset ∩ M).card := by omega
  have heq : (unknownNbrs s p).toFinset ∩ M = (unknownNbrs s p).toFinset :=
    Finset.eq_of_subset_of_card_le Finset.inter_subset_left hle
  intro q hq
  have hq1 : q ∈ (unknownNbrs s p).toFinset := List.mem_toFinset.mpr hq
  rw [← heq] at hq1
  exact (Finset.mem_inter.mp hq1).2

theorem flaggedNbrs_mem_M {s : GameState} {M : Finset Point} {p : Point}
    (hC : Consistent s M) (hp : p ∈ s.board.points) :
    ∀ q ∈ flaggedNbrs s p, q ∈ M := by
  intro q hq
  rw [flaggedNbrs, List.mem_filter, decide_eq_true_eq] at hq
  exact hC.2.1 q (nbrs_mem_points hp hq.1) hq.2

theorem localRule_sound {s : GameState} {M : Finset Point} (hF : Fairness s)
    (hC : Consistent s M) (hNRM : NoRevealedMine s) {p : Point}
    {r : Move × RuleTag} (hp : p ∈ s.board.points)
    (hr : localRule s p = some r) : MoveSound M r.1 := by
  obtain ⟨m, tag⟩ := r
  simp only [localRule] at hr
  split at hr
  · next n htyp =>
    split_ifs at hr with h1 h2 hclick h3 <;>
      first
      | exact Option.noConfusion hr
      | (rw [Option.some_inj] at hr
         cases hr
         intro a ha
         first
         | (rw [List.mem_singleton] at ha
            subst ha
            exact ⟨fun h => Operation.noConfusion h,
              fun h => Operation.noConfusion h⟩)
         | (simp only [List.mem_map] at ha
            obtain ⟨q, hq, rfl⟩ := ha
            refine ⟨fun h => Operation.noConfusion h, fun _ => ?_⟩
            first
            | exact unknownNbrs_all_mem_M hF hC hNRM hp htyp (by assumption) q hq
            | exact flaggedNbrs_mem_M hC hp q hq))
  · exact Option.noConfusion hr

theorem sub_toFinset (A B : Flag) :
    ((A.sub B).points).toFinset = A.points.toFinset \ B.points.toFinset := by
  ext q
  simp [Flag.sub, List.mem_filter]

theorem sub_number (A B : Flag) (h : B.number ≤ A.number) :
    (A.sub B).number = A.number - B.number := by
  show u8sub A.number B.number = _
  unfold u8sub
  rw [if_pos h]

theorem exactFlag_sub {s : GameState} {M : Finset Point} {A B : Flag}
    (hA : ExactFlag s M A) (hB : ExactFlag s M B)
    (hsub : ∀ q ∈ B.points, q ∈ A.points) : ExactFlag s M (A.sub B) := by
  have hBsubA : B.points.toFinset ∩ M ⊆ A.points.toFinset ∩ M := by
    intro q hq
    rw [Finset.mem_inter] at hq ⊢
    exact ⟨List.mem_toFinset.mpr (hsub q (List.mem_toFinset.mp hq.1)), hq.2⟩
  have hnum : B.number ≤ A.number := by
    rw [← hA.exact, ← hB.exact]
    exact Finset.card_le_card hBsubA
  refine ⟨?_, ?_, ?_, ?_, ?_⟩
  · exact List.Nodup.filter _ hA.nodup
  · intro q hq
    exact hA.mem_board q (List.mem_of_mem_filter hq)
  · intro q hq
    exact hA.unknown q (List.mem_of_mem_filter hq)
  · exact le_trans (List.length_filter_le _ _) hA.card_le
  · rw [sub_toFinset, sub_number A B hnum, ← hA.exact, ← hB.exact]
    have hset : (A.points.toFinset \ B.points.toFinset) ∩ M =
        (A.points.toFinset ∩ M) \ (B.points.toFinset ∩ M) := by
      ext q
      simp only [Finset.mem_inter, Finset.mem_sdiff]
      tauto
    rw [hset, Finset.card_sdiff hBsubA]

theorem revealMove_sound {s : GameState} {M : Finset Point} {R : Flag}
    (hR : ExactFlag s M R) (h0 : R.number = 0) (cited : List Point) :
    MoveSound M (revealMove R cited) := by
  intro a ha
  simp only [revealMove, List.mem_map] at ha
  obtain ⟨q, hq, rfl⟩ := ha
  refine ⟨fun _ => ?_, fun h => Operation.noConfusion h⟩
  intro hqM
  have hcard := hR.exact
  rw [h0, Finset.card_eq_zero] at hcard
  have hq2 : q ∈ R.points.toFinset ∩ M :=
    Finset.mem_inter.mpr ⟨List.mem_toFinset.mpr hq, hqM⟩
  rw [hcard] at hq2
  exact absurd hq2 (Finset.not_mem_empty q)

theorem flagMove_sound {s : GameState} {M : Finset Point} {R : Flag}
    (hR : ExactFlag s M R) (hlen : R.number = R.points.length)
    (cited : List Point) : MoveSound M (flagMove R cited) := by
  intro a ha
  simp only [flagMove, List.mem_map] at ha
  obtain ⟨q, hq, rfl⟩ := ha
  refine ⟨fun h => Operation.noConfusion h, fun _ => ?_⟩
  have hcard := hR.exact
  rw [hlen, ← List.toFinset_card_of_nodup hR.nodup] at hcard
  have heq : R.points.toFinset ∩ M = R.points.toFinset :=
    Finset.eq_of_subset_of_card_le Finset.inter_subset_left
      (le_of_eq hcard.symm)
  have hq1 : q ∈ R.points.toFinset := List.mem_toFinset.mpr hq
  rw [← heq] at hq1
  exact (Finset.mem_inter.mp hq1).2

theorem overlap_flagMove_sound {s : GameState} {M : Finset Point} {A B : Flag}
    (hA : ExactFlag s M A) (hB : ExactFlag s M B)
    (hlen : (A.sub B).number = (A.sub B).points.length) :
    MoveSound M (flagMove (A.sub B) B.points) := by
  by_cases hw : B.number ≤ A.number
  · intro a ha
    simp only [flagMove, List.mem_map] at ha
    obtain ⟨q, hq, rfl⟩ := ha
    refine ⟨fun h => Operation.noConfusion h, fun _ => ?_⟩
    have hRnd : (A.sub B).points.Nodup := List.Nodup.filter _ hA.nodup
    have hcover : A.points.toFinset ∩ M ⊆
        ((A.sub B).points.toFinset ∩ M) ∪ (B.points.toFinset ∩ M) := by
      intro x hx
      rw [Finset.mem_inter] at hx
      rw [Finset.mem_union, Finset.mem_inter, Finset.mem_inter, sub_toFinset,
        Finset.mem_sdiff]
      by_cases hxB : x ∈ B.points.toFinset
      · exact .inr ⟨hxB, hx.2⟩
      · exact .inl ⟨⟨hx.1, hxB⟩, hx.2⟩
    have h1 := Finset.card_le_card hcover
    have h2 := Finset.card_union_le ((A.sub B).points.toFinset ∩ M)
      (B.points.toFinset ∩ M)
    have h3 : (B.points.toFinset ∩ M).card = B.number := hB.exact
    have h4 : (A.points.toFinset ∩ M).card = A.number := hA.exact
    have h5 : (A.sub B).number = A.number - B.number := sub_number A B hw
    have hle2 : ((A.sub B).points.toFinset ∩ M).card ≤
        (A.sub B).points.length := by
      rw [← List.toFinset_card_of_nodup hRnd]
      exact Finset.card_le_card Finset.inter_subset_left
    have heq : (A.sub B).points.toFinset ∩ M = (A.sub B).points.toFinset := by
      refine Finset.eq_of_subset_of_card_le Finset.inter_subset_left ?_
      rw [List.toFinset_card_of_nodup hRnd]
      omega
    have hq1 : q ∈ (A.sub B).points.toFinset := List.mem_toFinset.mpr hq
    rw [← heq] at hq1
    exact (Finset.mem_inter.mp hq1).2
  · exfalso
    have h1 : (A.sub B).number = A.number + 256 - B.number := by
      show u8sub A.number B.number = _
      unfold u8sub
      rw [if_neg hw]
    have h2 : (A.sub B).points.length ≤ A.points.length :=
      List.length_filter_le _ _
    have h3 := hA.card_le
    have h6 : (B.points.toFinset ∩ M).card ≤ B.points.length := by
      rw [← List.toFinset_card_of_nodup hB.nodup]
      exact Finset.card_le_card Finset.inter_subset_left
    have h7 := hB.card_le
    have h5 := hB.exact
    omega

theorem checkContained_exact {s : GameState} {M : Finset Point} {A : Flag}
    (hA : ExactFlag s M A) :
    ∀ (l staged : List Flag),
      (∀ B ∈ l, ExactFlag s M B ∧ ∀ q ∈ B.points, q ∈ A.points) →
      (∀ f ∈ staged, ExactFlag s M f) →
      (∀ st, checkContained A l staged = .ok st → ∀ f ∈ st, ExactFlag s M f) ∧
      (∀ mv, checkContained A l staged = .error mv → MoveSound M mv)
  | [], staged, _, hstaged => by
    constructor
    · intro st h f hf
      simp only [checkContained] at h
      cases h
      exact hstaged f hf
    · intro mv h
      simp only [checkContained] at h
      exact Except.noConfusion h
  | B :: rest, staged, hl, hstaged => by
    have hB := hl B (List.mem_cons_self B rest)
    have hrest : ∀ X ∈ rest, ExactFlag s M X ∧ ∀ q ∈ X.points, q ∈ A.points :=
      fun X hX => hl X (List.mem_cons_of_mem _ hX)
    have hRexact : ExactFlag s M (A.sub B) := exactFlag_sub hA hB.1 hB.2
    constructor
    · intro st h f hf
      simp only [checkContained] at h
      split_ifs at h
      all_goals first
        | exact Except.noConfusion h
        | exact (checkContained_exact hA rest staged hrest hstaged).1 st h f hf
        | (refine (checkContained_exact hA rest _ hrest ?_).1 st h f hf
           intro g hg
           rcases insertFlag_mem hg with h1 | h1
           · exact hstaged g h1
           · exact h1 ▸ hRexact)
    · intro mv h
      simp only [checkContained] at h
      split_ifs at h
      all_goals first
        | exact (checkContained_exact hA rest staged hrest hstaged).2 mv h
        | exact (checkContained_exact hA rest _ hrest
            (fun g hg => (insertFlag_mem hg).elim (hstaged g)
              (fun h1 => h1 ▸ hRexact))).2 mv h
        | (rw [Except.error.injEq] at h
           subst h
           first
           | exact revealMove_sound hRexact (by assumption) B.points
           | exact flagMove_sound hRexact (by assumption) B.points)

theorem checkOverlap_sound {s : GameState} {M : Finset Point} {A : Flag}
    (hA : ExactFlag s M A) :
    ∀ (l : List Flag), (∀ B ∈ l, ExactFlag s M B) →
      ∀ mv, checkOverlap A l = some mv → MoveSound M mv
  | [], _, mv, h => by simp [checkOverlap] at h
  | B :: rest, hl, mv, h => by
    have hB := hl B (List.mem_cons_self B rest)
    have hrest : ∀ X ∈ rest, ExactFlag s M X :=
      fun X hX => hl X (List.mem_cons_of_mem _ hX)
    simp only [checkOverlap] at h
    split_ifs at h with h1 h2
    · exact checkOverlap_sound hA rest hrest mv h
    · rw [Option.some_inj] at h
      subst h
      exact overlap_flagMove_sound hA hB h2
    · exact checkOverlap_sound hA rest hrest mv h

theorem passOne_exact {s : GameState} {M : Finset Point} {flags : List Flag}
    {A : Flag} {staged : List Flag}
    (hflags : ∀ f ∈ flags, ExactFlag s M f) (hA : ExactFlag s M A)
    (hstaged : ∀ f ∈ staged, ExactFlag s M f) :
    (∀ st, passOne flags A staged = .ok st → ∀ f ∈ st, ExactFlag s M f) ∧
    (∀ mv, passOne flags A staged = .error mv → MoveSound M mv) := by
  have hcl : ∀ B ∈ containedOf flags A,
      ExactFlag s M B ∧ ∀ q ∈ B.points, q ∈ A.points := by
    intro B hB
    have hmem : B ∈ flags := by
      rw [containedOf, List.mem_filter] at hB
      exact hB.1
    exact ⟨hflags B hmem, ge_points_sub (mem_containedOf hB)⟩
  have htl : ∀ B ∈ touchingOf flags A, ExactFlag s M B := by
    intro B hB
    rw [touchingOf, List.mem_filter] at hB
    exact hflags B hB.1
  have hcc := checkContained_exact hA (containedOf flags A) staged hcl hstaged
  constructor
  · intro st h f hf
    unfold passOne at h
    split at h
    · exact Except.noConfusion h
    · rename_i staged1 heq
      split at h
      · exact Except.noConfusion h
      · cases h
        exact hcc.1 _ heq f hf
  · intro mv h
    unfold passOne at h
    split at h
    · rename_i m heq
      rw [Except.error.injEq] at h
      subst h
      exact hcc.2 _ heq
    · rename_i staged1 heq
      split at h
      · rename_i m2 heq2
        rw [Except.error.injEq] at h
        subst h
        exact checkOverlap_sound hA (touchingOf flags A) htl _ heq2
      · exact Except.noConfusion h

theorem passAll_exact {s : GameState} {M : Finset Point} {flags : List Flag}
    (hflags : ∀ f ∈ flags, ExactFlag s M f) :
    ∀ (l staged : List Flag), (∀ A ∈ l, ExactFlag s M A) →
      (∀ f ∈ staged, ExactFlag s M f) →
      (∀ st, passAll flags l staged = .ok st → ∀ f ∈ st, ExactFlag s M f) ∧
      (∀ mv, passAll flags l staged = .error mv → MoveSound M mv)
  | [], staged, _, hstaged => by
    constructor
    · intro st h f hf
      simp only [passAll] at h
      cases h
      exact hstaged f hf
    · intro mv h
      simp only [passAll] at h
      exact Except.noConfusion h
  | A :: rest, staged, hl, hstaged => by
    have hA := hl A (List.mem_cons_self A rest)
    have hrest : ∀ X ∈ rest, ExactFlag s M X :=
      fun X hX => hl X (List.mem_cons_of_mem _ hX)
    have hp1 := passOne_exact hflags hA hstaged
    constructor
    · intro st h f hf
      simp only [passAll] at h
      split at h
      · exact Except.noConfusion h
      · rename_i staged1 heq
        exact (passAll_exact hflags rest staged1 hrest (hp1.1 _ heq)).1 st h f hf
    · intro mv h
      simp only [passAll] at h
      split at h
      · rename_i m heq
        rw [Except.error.injEq] at h
        subst h
        exact hp1.2 _ heq
      · rename_i staged1 heq
        exact (passAll_exact hflags rest staged1 hrest (hp1.1 _ heq)).2 mv h

theorem propLoop_sound {s : GameState} {M : Finset Point} :
    ∀ (fuel : Nat) (flags : List Flag), (∀ f ∈ flags, ExactFlag s M f) →
      ∀ mv, propLoop fuel flags = .move mv → MoveSound M mv
  | 0, flags, _, mv, h => by simp [propLoop] at h
  | fuel + 1, flags, hflags, mv, h => by
    simp only [propLoop] at h
    split at h
    · rename_i m heq
      rw [PropOutcome.move.injEq] at h
      subst h
      exact (passAll_exact hflags flags [] hflags
        (fun g hg => absurd hg (List.not_mem_nil g))).2 _ heq
    · rename_i staged heq
      split_ifs at h with hch
      · refine @propLoop_sound s M fuel (insertAll flags staged).1 ?_ mv h
        intro f hf
        rcases insertAll_mem staged flags f hf with h1 | h1
        · exact hflags f h1
        · exact (passAll_exact hflags flags [] hflags
            (fun g hg => absurd hg (List.not_mem_nil g))).1 _ heq f h1

theorem constraintAt_exact {s : GameState} {M : Finset Point}
    (hF : Fairness s) (hC : Consistent s M) (hNRM : NoRevealedMine s)
    {p : Point} {g : Flag} (hp : p ∈ s.board.points)
    (h : constraintAt s p = some g) : ExactFlag s M g := by
  simp only [constraintAt] at h
  split at h
  · rename_i n htyp
    split_ifs at h
    all_goals first
      | exact Option.noConfusion h
      | (rw [Option.some_inj] at h
         subst h
         have hcount := mtf_split (decidedInv_refl s M) hC hNRM hp
           (safe_cell_count hF hC hp htyp).2
         refine ⟨?_, ?_, ?_, ?_, ?_⟩
         · exact List.Nodup.filter _ neighbours_nodup
         · intro q hq
           exact nbrs_mem_points hp (List.mem_of_mem_filter hq)
         · intro q hq
           rw [unknownNbrs, List.mem_filter, decide_eq_true_eq] at hq
           exact hq.2
         · exact le_trans (List.length_filter_le _ _) neighbours_length_le
         · exact hcount.2)
  · exact Option.noConfusion h

theorem buildFlags_foldl_exact {s : GameState} {M : Finset Point}
    (hF : Fairness s) (hC : Consistent s M) (hNRM : NoRevealedMine s) :
    ∀ (ps : List Point) (acc : List Flag),
      (∀ p ∈ ps, p ∈ s.board.points) →
      (∀ f ∈ acc, ExactFlag s M f) →
      ∀ f ∈ (ps.foldl (fun acc p =>
        match constraintAt s p with
        | some g => insertFlag acc g
        | none => acc) acc), ExactFlag s M f
  | [], _, _, hacc, f, hf => hacc f hf
  | p :: rest, acc, hps, hacc, f, hf => by
    simp only [List.foldl_cons] at hf
    refine buildFlags_foldl_exact hF hC hNRM rest _
      (fun q hq => hps q (List.mem_cons_of_mem _ hq)) ?_ f hf
    intro g hg
    split at hg
    · rename_i c hc
      rcases insertFlag_mem hg with h1 | h1
      · exact hacc g h1
      · exact h1 ▸ constraintAt_exact hF hC hNRM
          (hps p (List.mem_cons_self p rest)) hc
    · exact hacc g hg

theorem buildFlags_exact {s : GameState} {M : Finset Point}
    (hF : Fairness s) (hC : Consistent s M) (hNRM : NoRevealedMine s) :
    ∀ f ∈ buildFlags s, ExactFlag s M f :=
  buildFlags_foldl_exact hF hC hNRM s.board.points []
    (fun p hp => hp) (fun g hg => absurd hg (List.not_mem_nil g))

theorem flagged_eq_M_of_rem_zero {s : GameState} {M : Finset Point}
    (hC : Consistent s M) (hrem : s.remainingMines = 0) :
    flaggedFinset s = M := by
  have hsub : flaggedFinset s ⊆ M := by
    intro q hq
    rw [flaggedFinset, List.mem_toFinset, List.mem_filter,
      decide_eq_true_eq] at hq
    exact hC.2.1 q hq.1 hq.2
  have hcardI : (M.card : Int) = ((flaggedFinset s).card : Int) := by
    rw [hC.2.2.2, hrem]
    ring
  have hcard : M.card = (flaggedFinset s).card := by exact_mod_cast hcardI
  exact Finset.eq_of_subset_of_card_le hsub (le_of_eq hcard)

theorem exhaustStage_sound {s : GameState} {M : Finset Point}
    (hC : Consistent s M) {m : Move} (h : exhaustStage s = some m) :
    MoveSound M m := by
  simp only [exhaustStage] at h
  split_ifs at h with hrem hclick
  · rw [Option.some_inj] at h
    subst h
    intro a ha
    simp only [List.mem_map, List.mem_filter, decide_eq_true_eq] at ha
    obtain ⟨q, ⟨hq1, hq2⟩, rfl⟩ := ha
    refine ⟨fun _ => ?_, fun hop => Operation.noConfusion hop⟩
    intro hqM
    rw [← flagged_eq_M_of_rem_zero hC hrem, flaggedFinset, List.mem_toFinset,
      List.mem_filter, decide_eq_true_eq] at hqM
    rw [hq2] at hqM
    exact CellState.noConfusion hqM.2

theorem mem_emptiesOf {s : GameState} {p : Point} :
    p ∈ emptiesOf s ↔ p ∈ s.board.points ∧ s.stateAt p = .Unknown ∧
      (s.board.nbrs p).any (posSafe s) = true := by
  rw [emptiesOf, List.mem_filter]
  simp [and_assoc]

theorem mem_insertPt {l : List Point} {q x : Point} :
    x ∈ insertPt l q ↔ x ∈ l ∨ x = q := by
  unfold insertPt
  split_ifs with hq
  · constructor
    · exact .inl
    · rintro (h | rfl)
      · exact h
      · exact hq
  · simp [List.mem_append]

theorem inner_fold_mem (s : GameState) :
    ∀ (l acc : List Point) (x : Point),
      (x ∈ l.foldl (fun acc2 q =>
        if posSafe s q then insertPt acc2 q else acc2) acc) ↔
        (x ∈ acc ∨ (x ∈ l ∧ posSafe s x = true))
  | [], acc, x => by simp
  | q :: rest, acc, x => by
    rw [List.foldl_cons, inner_fold_mem s rest _ x]
    split_ifs with hq
    · rw [mem_insertPt]
      constructor
      · rintro ((h | rfl) | ⟨h1, h2⟩)
        · exact .inl h
        · exact .inr ⟨List.mem_cons_self _ _, hq⟩
        · exact .inr ⟨List.mem_cons_of_mem _ h1, h2⟩
      · rintro (h | ⟨h1, h2⟩)
        · exact .inl (.inl h)
        · rcases List.mem_cons.mp h1 with rfl | h3
          · exact .inl (.inr rfl)
          · exact .inr ⟨h3, h2⟩
    · constructor
      · rintro (h | ⟨h1, h2⟩)
        · exact .inl h
        · exact .inr ⟨List.mem_cons_of_mem _ h1, h2⟩
      · rintro (h | ⟨h1, h2⟩)
        · exact .inl h
        · rcases List.mem_cons.mp h1 with rfl | h3
          · exact absurd h2 hq
          · exact .inr ⟨h3, h2⟩

theorem outer_fold_mem (s : GameState) :
    ∀ (l acc : List Point) (x : Point),
      (x ∈ l.foldl (fun acc p =>
        if s.stateAt p = .Unknown then
          (s.board.nbrs p).foldl (fun acc2 q =>
            if posSafe s q then insertPt acc2 q else acc2) acc
        else acc) acc) ↔
        (x ∈ acc ∨ ∃ p ∈ l, s.stateAt p = .Unknown ∧ x ∈ s.board.nbrs p ∧
          posSafe s x = true)
  | [], acc, x => by simp
  | p :: rest, acc, x => by
    rw [List.foldl_cons, outer_fold_mem s rest _ x]
    split_ifs with hp
    · rw [inner_fold_mem]
      constructor
      · rintro ((h | ⟨h1, h2⟩) | ⟨r, hr, h3⟩)
        · exact .inl h
        · exact .inr ⟨p, List.mem_cons_self _ _, hp, h1, h2⟩
        · exact .inr ⟨r, List.mem_cons_of_mem _ hr, h3⟩
      · rintro (h | ⟨r, hr, h1, h2, h3⟩)
        · exact .inl (.inl h)
        · rcases List.mem_cons.mp hr with rfl | h4
          · exact .inl (.inr ⟨h2, h3⟩)
          · exact .inr ⟨r, h4, h1, h2, h3⟩
    · constructor
      · rintro (h | ⟨r, hr, h1, h2, h3⟩)
        · exact .inl h
        · exact .inr ⟨r, List.mem_cons_of_mem _ hr, h1, h2, h3⟩
      · rintro (h | ⟨r, hr, h1, h2, h3⟩)
        · exact .inl h
        · rcases List.mem_cons.mp hr with rfl | h4
          · exact absurd h1 hp
          · exact .inr ⟨r, h4, h1, h2, h3⟩

theorem mem_adjacentsOf {s : GameState} {x : Point} :
    x ∈ adjacentsOf s ↔ ∃ p ∈ s.board.points, s.stateAt p = .Unknown ∧
      x ∈ s.board.nbrs p ∧ posSafe s x = true := by
  rw [adjacentsOf, outer_fold_mem s _ [] x]
  simp

theorem posSafe_iff {s : GameState} {q : Point} :
    posSafe s q = true ↔ ∃ n, s.typeAt q = .Safe n ∧ 0 < n := by
  unfold posSafe
  split
  · next n htyp =>
    simp only [decide_eq_true_eq]
    constructor
    · intro h
      exact ⟨n, htyp, h⟩
    · rintro ⟨m, hm, h0⟩
      rw [htyp, CellType.Safe.injEq] at hm
      omega
  · next htyp =>
    constructor
    · intro h
      exact Bool.noConfusion h
    · rintro ⟨m, hm, -⟩
      exact absurd hm (by intro hc; exact htyp m hc)

theorem foldl_insertPt_of_nodup : ∀ (l acc : List Point),
    (acc ++ l).Nodup → l.foldl insertPt acc = acc ++ l
  | [], acc, _ => by simp
  | q :: rest, acc, h => by
    rw [List.foldl_cons]
    have hq : q ∉ acc := by
      intro hmem
      rw [List.nodup_append] at h
      exact h.2.2 hmem (List.mem_cons_self _ _)
    have hins : insertPt acc q = acc ++ [q] := by
      rw [insertPt, if_neg hq]
    have hassoc : acc ++ [q] ++ rest = acc ++ q :: rest := by simp
    rw [hins, foldl_insertPt_of_nodup rest (acc ++ [q]) (by rw [hassoc]; exact h),
      hassoc]

theorem recCombos_complete (empties : List Point) :
    ∀ (mtf : Nat) (idxs : List Nat) (selected : List Point) (start : Nat),
      idxs.length = mtf → idxs.Pairwise (· < ·) →
      (∀ i ∈ idxs, start ≤ i ∧ i < empties.length) → 1 ≤ mtf →
      idxs.foldl (fun sel i => insertPt sel (empties.getD i (0, 0))) selected ∈
        recGetFlagCombinations selected empties start mtf
  | 0, _, _, _, _, _, _, hmtf => absurd hmtf (by omega)
  | mtf + 1, [], _, _, hlen, _, _, _ => by simp at hlen
  | mtf + 1, i :: rest, selected, start, hlen, hpw, hbd, _ => by
    have hib := hbd i (List.mem_cons_self i rest)
    simp only [recGetFlagCombinations]
    rw [List.mem_flatMap]
    refine ⟨i, ?_, ?_⟩
    · rw [List.mem_range'_1]
      omega
    · rw [List.foldl_cons]
      by_cases hk : mtf = 0
      · subst hk
        have hlen2 : rest.length = 0 := by
          simp only [List.length_cons] at hlen
          omega
        have hrest : rest = [] := List.length_eq_zero.mp hlen2
        subst hrest
        rw [if_pos rfl]
        exact List.mem_singleton.mpr rfl
      · rw [if_neg hk]
        refine recCombos_complete empties mtf rest _ (start + 1)
          (by simp only [List.length_cons] at hlen; omega)
          ((List.pairwise_cons.mp hpw).2) ?_ (by omega)
        intro j hj
        have h1 := (List.pairwise_cons.mp hpw).1 j hj
        have h2 := hbd j (List.mem_cons_of_mem _ hj)
        exact ⟨by omega, h2.2⟩

theorem filter_eq_map_indices (P : Point → Bool) (d : Point) : ∀ (l : List Point),
    l.filter P = (((List.range l.length).filter fun i => P (l.getD i d)).map
      fun i => l.getD i d)
  | [] => rfl
  | q :: rest => by
    have ih := filter_eq_map_indices P d rest
    have h0 : List.range (q :: rest).length =
        0 :: (List.range rest.length).map (· + 1) := by
      rw [List.length_cons, List.range_succ_eq_map]
    rw [List.filter_cons, h0, List.filter_cons]
    simp only [List.getD_cons_zero]
    split_ifs with hq
    · simp only [List.map_cons, List.getD_cons_zero, List.filter_map,
        Function.comp_def, List.map_map, List.getD_cons_succ]
      rw [ih]
    · simp only [List.filter_map, Function.comp_def, List.map_map,
        List.getD_cons_succ]
      rw [ih]

theorem filterM_toFinset (M : Finset Point) (l : List Point) :
    (l.filter fun q => decide (q ∈ M)).toFinset = l.toFinset ∩ M := by
  ext q
  simp [List.mem_filter]

theorem canonical_combo_mem {M : Finset Point} (empt : List Point)
    (hnd : empt.Nodup)
    (hlen1 : 1 ≤ (empt.filter fun q => decide (q ∈ M)).length) :
    (empt.filter fun q => decide (q ∈ M)) ∈
      getFlagCombinations empt (empt.filter fun q => decide (q ∈ M)).length := by
  have hle : (empt.filter fun q => decide (q ∈ M)).length ≤ empt.length :=
    List.length_filter_le _ _
  rw [getFlagCombinations, if_neg (by omega)]
  have hidx := filter_eq_map_indices (fun q => decide (q ∈ M)) (0, 0) empt
  have hfnd : (empt.filter fun q => decide (q ∈ M)).Nodup :=
    List.Nodup.filter _ hnd
  have hfold : (((List.range empt.length).filter fun i =>
      decide (empt.getD i (0, 0) ∈ M)).foldl
        (fun sel i => insertPt sel (empt.getD i (0, 0))) []) =
      (empt.filter fun q => decide (q ∈ M)) := by
    rw [← List.foldl_map (fun i => empt.getD i (0, 0)) insertPt, ← hidx]
    exact foldl_insertPt_of_nodup _ [] (by simpa using hfnd)
  have hmem := recCombos_complete empt
    (empt.filter fun q => decide (q ∈ M)).length
    ((List.range empt.length).filter fun i => decide (empt.getD i (0, 0) ∈ M))
    [] 0 (by rw [hidx, List.length_map])
    (List.Pairwise.sublist (List.filter_sublist _) (List.pairwise_lt_range _))
    (fun i hi => by
      rw [List.mem_filter, List.mem_range] at hi
      exact ⟨Nat.zero_le i, hi.1⟩) hlen1
  rw [hfold] at hmem
  exact hmem

theorem slotOk_of_WF {s : GameState} (hWF : WFBoard s.board) {q : Point}
    (hq : q ∈ s.board.points) : SlotOk s.board q := by
  have hq2 := mem_pointsOf.mp hq
  have hlt : q.1 < s.board.grid.length := by
    rw [hWF.1]
    exact hq2.1
  refine ⟨hlt, ?_⟩
  have hmem : s.board.grid.getD q.1 [] ∈ s.board.grid := by
    rw [List.getD_eq_getElem _ _ hlt]
    exact List.getElem_mem hlt
  rw [hWF.2 _ hmem]
  exact hq2.2

theorem slotOk_inv {s t : GameState} {M D : Finset Point}
    (hinv : DecidedInv s M D t) (q : Point) :
    SlotOk t.board q ↔ SlotOk s.board q := by
  unfold SlotOk
  rw [hinv.grid_len, hinv.col_len q.1]

theorem decidedInv_step {s t : GameState} {M D : Finset Point} {q : Point}
    (hWF : WFBoard s.board) (hinv : DecidedInv s M D t)
    (hq : q ∈ s.board.points) (hqs : s.stateAt q = .Unknown) (hqD : q ∉ D) :
    DecidedInv s M (insert q D)
      (if q ∈ M then simulateRightClick t q else simulateReveal t q) := by
  have htq : t.stateAt q = .Unknown := (tstate_unknown_iff hinv).mpr ⟨hqs, hqD⟩
  have hslot : SlotOk t.board q := (slotOk_inv hinv q).mpr (slotOk_of_WF hWF hq)
  by_cases hm : q ∈ M
  · rw [if_pos hm]
    have hsrc : simulateRightClick t q =
        { t.setCellState q .Flagged with
            remainingMines := t.remainingMines - 1 } := by
      unfold simulateRightClick
      rw [htq]
    rw [hsrc]
    refine ⟨?_, ?_, ?_, ?_, ?_, ?_, ?_, ?_⟩
    · show (t.setCellState q .Flagged).board.width = s.board.width
      rw [setCellState_width, hinv.width_eq]
    · show (t.setCellState q .Flagged).board.height = s.board.height
      rw [setCellState_height, hinv.height_eq]
    · show (t.board.setCell q ⟨t.typeAt q, .Flagged⟩).grid.length =
        s.board.grid.length
      rw [setCell_grid_length, hinv.grid_len]
    · intro i
      show ((t.board.setCell q ⟨t.typeAt q, .Flagged⟩).grid.getD i []).length =
        ((s.board.grid.getD i []).length)
      rw [setCell_col_length, hinv.col_len i]
    · intro p
      by_cases hpq : p = q
      · subst hpq
        show ((t.setCellState p .Flagged).cellAt p).cellType = s.typeAt p
        rw [setCellState_cellAt_self _ hslot]
        exact hinv.type_eq p
      · show ((t.setCellState q .Flagged).cellAt p).cellType = s.typeAt p
        rw [setCellState_cellAt_ne _ hpq]
        exact hinv.type_eq p
    · intro p
      by_cases hpq : p = q
      · subst hpq
        rw [if_pos ⟨hqs, Finset.mem_insert_self p D⟩, if_pos hm]
        show ((t.setCellState p .Flagged).cellAt p).cellState = CellState.Flagged
        rw [setCellState_cellAt_self _ hslot]
      · have hLHS : ({ t.setCellState q .Flagged with
            remainingMines := t.remainingMines - 1 } : GameState).stateAt p =
            t.stateAt p := by
          show ((t.setCellState q .Flagged).cellAt p).cellState = _
          rw [setCellState_cellAt_ne _ hpq]
          rfl
        rw [hLHS]
        have h2 := hinv.state_eq p
        by_cases hcond : s.stateAt p = .Unknown ∧ p ∈ D
        · rw [if_pos hcond] at h2
          rw [if_pos ⟨hcond.1, Finset.mem_insert_of_mem hcond.2⟩]
          exact h2
        · rw [if_neg hcond] at h2
          rw [if_neg ?hc]
          case hc =>
            rintro ⟨hU, hins⟩
            rcases Finset.mem_insert.mp hins with rfl | hD
            · exact hpq rfl
            · exact hcond ⟨hU, hD⟩
          exact h2
    · intro r hr
      rcases Finset.mem_insert.mp hr with rfl | hD
      · exact ⟨hq, hqs⟩
      · exact hinv.decided_sub r hD
    · show t.remainingMines - 1 =
        s.remainingMines - ((insert q D ∩ M).card : Int)
      have h2 : insert q D ∩ M = insert q (D ∩ M) :=
        Finset.insert_inter_of_mem hm
      have h3 : q ∉ D ∩ M := fun hc => hqD (Finset.mem_inter.mp hc).1
      rw [h2, Finset.card_insert_of_not_mem h3, hinv.rem_eq]
      push_cast
      ring
  · rw [if_neg hm]
    have hsrc : simulateReveal t q = t.setCellState q .Revealed := rfl
    rw [hsrc]
    refine ⟨?_, ?_, ?_, ?_, ?_, ?_, ?_, ?_⟩
    · show (t.setCellState q .Revealed).board.width = s.board.width
      rw [setCellState_width, hinv.width_eq]
    · show (t.setCellState q .Revealed).board.height = s.board.height
      rw [setCellState_height, hinv.height_eq]
    · show (t.board.setCell q ⟨t.typeAt q, .Revealed⟩).grid.length =
        s.board.grid.length
      rw [setCell_grid_length, hinv.grid_len]
    · intro i
      show ((t.board.setCell q ⟨t.typeAt q, .Revealed⟩).grid.getD i []).length =
        ((s.board.grid.getD i []).length)
      rw [setCell_col_length, hinv.col_len i]
    · intro p
      by_cases hpq : p = q
      · subst hpq
        show ((t.setCellState p .Revealed).cellAt p).cellType = s.typeAt p
        rw [setCellState_cellAt_self _ hslot]
        exact hinv.type_eq p
      · show ((t.setCellState q .Revealed).cellAt p).cellType = s.typeAt p
        rw [setCellState_cellAt_ne _ hpq]
        exact hinv.type_eq p
    · intro p
      by_cases hpq : p = q
      · subst hpq
        rw [if_pos ⟨hqs, Finset.mem_insert_self p D⟩, if_neg hm]
        show ((t.setCellState p .Revealed).cellAt p).cellState = CellState.Revealed
        rw [setCellState_cellAt_self _ hslot]
      · have hLHS : (t.setCellState q .Revealed).stateAt p = t.stateAt p := by
          show ((t.setCellState q .Revealed).cellAt p).cellState = _
          rw [setCellState_cellAt_ne _ hpq]
          rfl
        rw [hLHS]
        have h2 := hinv.state_eq p
        by_cases hcond : s.stateAt p = .Unknown ∧ p ∈ D
        · rw [if_pos hcond] at h2
          rw [if_pos ⟨hcond.1, Finset.mem_insert_of_mem hcond.2⟩]
          exact h2
        · rw [if_neg hcond] at h2
          rw [if_neg ?hc2]
          case hc2 =>
            rintro ⟨hU, hins⟩
            rcases Finset.mem_insert.mp hins with rfl | hD
            · exact hpq rfl
            · exact hcond ⟨hU, hD⟩
          exact h2
    · intro r hr
      rcases Finset.mem_insert.mp hr with rfl | hD
      · exact ⟨hq, hqs⟩
      · exact hinv.decided_sub r hD
    · show t.remainingMines =
        s.remainingMines - ((insert q D ∩ M).card : Int)
      rw [Finset.insert_inter_of_not_mem hm, hinv.rem_eq]

theorem applyCombo_inv {s : GameState} {M : Finset Point} (hWF : WFBoard s.board) :
    ∀ (l combo : List Point) (t : GameState) (D : Finset Point),
      DecidedInv s M D t → l.Nodup →
      (∀ q ∈ l, q ∈ s.board.points ∧ s.stateAt q = .Unknown ∧ q ∉ D) →
      (∀ q ∈ l, q ∈ combo ↔ q ∈ M) →
      DecidedInv s M (D ∪ l.toFinset)
        (l.foldl (fun t2 q => if q ∈ combo then simulateRightClick t2 q
          else simulateReveal t2 q) t)
  | [], combo, t, D, hinv, _, _, _ => by simpa using hinv
  | q :: rest, combo, t, D, hinv, hnd, hl, hcombo => by
    rw [List.foldl_cons]
    have hq := hl q (List.mem_cons_self q rest)
    have hstep := decidedInv_step hWF hinv hq.1 hq.2.1 hq.2.2
    have hbranch : (if q ∈ combo then simulateRightClick t q
        else simulateReveal t q) =
        (if q ∈ M then simulateRightClick t q else simulateReveal t q) := by
      by_cases hc : q ∈ M
      · rw [if_pos hc, if_pos ((hcombo q (List.mem_cons_self q rest)).mpr hc)]
      · rw [if_neg hc,
          if_neg (fun hin => hc ((hcombo q (List.mem_cons_self q rest)).mp hin))]
    rw [hbranch]
    have hqrest : q ∉ rest := (List.nodup_cons.mp hnd).1
    have hres := applyCombo_inv hWF rest combo _ (insert q D) hstep
      (List.nodup_cons.mp hnd).2
      (fun r hr => ⟨(hl r (List.mem_cons_of_mem _ hr)).1,
        (hl r (List.mem_cons_of_mem _ hr)).2.1, fun hins => by
          rcases Finset.mem_insert.mp hins with rfl | hD
          · exact hqrest hr
          · exact (hl r (List.mem_cons_of_mem _ hr)).2.2 hD⟩)
      (fun r hr => hcombo r (List.mem_cons_of_mem _ hr))
    have hsets : insert q D ∪ rest.toFinset = D ∪ (q :: rest).toFinset := by
      ext x
      simp only [Finset.mem_union, Finset.mem_insert, List.toFinset_cons]
      tauto
    rw [← hsets]
    exact hres

theorem bruteForce_canonical {s : GameState} {M : Finset Point}
    (hWF : WFBoard s.board) (hF : Fairness s) (hC : Consistent s M)
    (hNRM : NoRevealedMine s) :
    ∀ (adj : List Point) (t : GameState) (D : Finset Point),
      (∀ q ∈ adj, q ∈ s.board.points ∧ posSafe s q = true) →
      DecidedInv s M D t →
      ∃ t' ∈ bruteForce adj t, ∃ D', D ⊆ D' ∧ DecidedInv s M D' t' ∧
        ∀ q ∈ adj, ∀ p ∈ s.board.nbrs q, s.stateAt p = .Unknown → p ∈ M →
          p ∈ D'
  | [], t, D, _, hinv =>
    ⟨t, List.mem_singleton.mpr rfl, D, Finset.Subset.refl D, hinv,
      fun q hq => absurd hq (List.not_mem_nil q)⟩
  | current :: rest, t, D, hadj, hinv => by
    obtain ⟨hcb, hcp⟩ := hadj current (List.mem_cons_self current rest)
    obtain ⟨n, htyp, hn0⟩ := posSafe_iff.mp hcp
    have htyp_t : t.typeAt current = .Safe n := by
      rw [hinv.type_eq current, htyp]
    have hnum := (safe_cell_count hF hC hcb htyp).2
    have hsplit := mtf_split hinv hC hNRM hcb hnum
    have hnbrs := nbrs_eq_of_inv hinv current
    have hempt_nd : (unknownNbrs t current).Nodup := by
      unfold unknownNbrs
      rw [hnbrs]
      exact List.Nodup.filter _ neighbours_nodup
    have hempt_facts : ∀ q ∈ unknownNbrs t current,
        q ∈ s.board.points ∧ s.stateAt q = .Unknown ∧ q ∉ D := by
      intro q hq
      rw [unknownNbrs, List.mem_filter, decide_eq_true_eq, hnbrs] at hq
      have hq2 := (tstate_unknown_iff hinv).mp hq.2
      exact ⟨nbrs_mem_points hcb hq.1, hq2.1, hq2.2⟩
    have hflag_le := hsplit.1
    have hmtf_eq : u8sub n (flaggedNbrs t current).length =
        n - (flaggedNbrs t current).length := by
      unfold u8sub
      rw [if_pos hflag_le]
    have hcardM : ((unknownNbrs t current).toFinset ∩ M).card =
        n - (flaggedNbrs t current).length := hsplit.2
    have hlen_le : n - (flaggedNbrs t current).length ≤
        (unknownNbrs t current).length := by
      calc n - (flaggedNbrs t current).length
          = ((unknownNbrs t current).toFinset ∩ M).card := hcardM.symm
        _ ≤ (unknownNbrs t current).toFinset.card :=
            Finset.card_le_card Finset.inter_subset_left
        _ = (unknownNbrs t current).length :=
            List.toFinset_card_of_nodup hempt_nd
    have hF0subM : flaggedFinset s ⊆ M := by
      intro x hx
      rw [flaggedFinset, List.mem_toFinset, List.mem_filter,
        decide_eq_true_eq] at hx
      exact hC.2.1 x hx.1 hx.2
    have hd1 : Disjoint (flaggedFinset s) (D ∩ M) := by
      rw [Finset.disjoint_left]
      intro x hx hx2
      rw [flaggedFinset, List.mem_toFinset, List.mem_filter,
        decide_eq_true_eq] at hx
      have hxd := (hinv.decided_sub x (Finset.mem_inter.mp hx2).1).2
      rw [hx.2] at hxd
      exact CellState.noConfusion hxd
    have hd2 : Disjoint (flaggedFinset s ∪ D ∩ M)
        ((unknownNbrs t current).toFinset ∩ M) := by
      rw [Finset.disjoint_left]
      intro x hx hx2
      have hxe := hempt_facts x (List.mem_toFinset.mp
        (Finset.mem_inter.mp hx2).1)
      rcases Finset.mem_union.mp hx with hxF | hxD
      · rw [flaggedFinset, List.mem_toFinset, List.mem_filter,
          decide_eq_true_eq] at hxF
        have hxF2 := hxF.2
        rw [hxe.2.1] at hxF2
        exact CellState.noConfusion hxF2
      · exact hxe.2.2 (Finset.mem_inter.mp hxD).1
    have hsubM : flaggedFinset s ∪ D ∩ M ∪
        ((unknownNbrs t current).toFinset ∩ M) ⊆ M := by
      intro x hx
      rcases Finset.mem_union.mp hx with hx1 | hx2
      · rcases Finset.mem_union.mp hx1 with hxa | hxb
        · exact hF0subM hxa
        · exact (Finset.mem_inter.mp hxb).2
      · exact (Finset.mem_inter.mp hx2).2
    have hcards : (flaggedFinset s).card + (D ∩ M).card +
        ((unknownNbrs t current).toFinset ∩ M).card ≤ M.card := by
      have h1 := Finset.card_le_card hsubM
      rw [Finset.card_union_of_disjoint hd2,
        Finset.card_union_of_disjoint hd1] at h1
      exact h1
    have hrem_ge : (↑(n - (flaggedNbrs t current).length) : Int) ≤
        t.remainingMines := by
      have h4 := hC.2.2.2
      have h5 := hinv.rem_eq
      omega
    have hunfold : bruteForce (current :: rest) t =
        (if ((u8sub n (flaggedNbrs t current).length : Int) >
              t.remainingMines ∨
            u8sub n (flaggedNbrs t current).length >
              (unknownNbrs t current).length) then []
         else if (u8sub n (flaggedNbrs t current).length = 0 ∨
            (unknownNbrs t current).isEmpty) then bruteForce rest t
         else (getFlagCombinations (unknownNbrs t current)
            (u8sub n (flaggedNbrs t current).length)).flatMap fun combo =>
              bruteForce rest (applyCombo t (unknownNbrs t current) combo)) := by
      simp only [bruteForce]
      rw [htyp_t]
    rw [hunfold, if_neg ?guard]
    case guard =>
      rw [hmtf_eq]
      rintro (hbad | hbad)
      · omega
      · omega
    by_cases hz : u8sub n (flaggedNbrs t current).length = 0 ∨
        (unknownNbrs t current).isEmpty
    · rw [if_pos hz]
      obtain ⟨t', ht', D', hsub, hinv', hclause⟩ :=
        bruteForce_canonical hWF hF hC hNRM rest t D
          (fun q hq => hadj q (List.mem_cons_of_mem _ hq)) hinv
      refine ⟨t', ht', D', hsub, hinv', ?_⟩
      intro q hq p hpnbr hpU hpM
      rcases List.mem_cons.mp hq with rfl | hqrest
      · by_cases hpD : p ∈ D
        · exact hsub hpD
        · have hpempt : p ∈ unknownNbrs t q := by
            rw [unknownNbrs, List.mem_filter, decide_eq_true_eq, hnbrs]
            exact ⟨hpnbr, (tstate_unknown_iff hinv).mpr ⟨hpU, hpD⟩⟩
          exfalso
          rcases hz with hz0 | hzemp
          · rw [hmtf_eq] at hz0
            have hpin : p ∈ (unknownNbrs t q).toFinset ∩ M :=
              Finset.mem_inter.mpr ⟨List.mem_toFinset.mpr hpempt, hpM⟩
            have hc0 : ((unknownNbrs t q).toFinset ∩ M).card = 0 := by
              rw [hcardM, hz0]
            rw [Finset.card_eq_zero] at hc0
            rw [hc0] at hpin
            exact absurd hpin (Finset.not_mem_empty p)
          · rw [List.isEmpty_iff] at hzemp
            rw [hzemp] at hpempt
            exact absurd hpempt (List.not_mem_nil p)
      · exact hclause q hqrest p hpnbr hpU hpM
    · rw [if_neg hz]
      push_neg at hz
      have hmtf1 : 1 ≤ u8sub n (flaggedNbrs t current).length :=
        Nat.one_le_iff_ne_zero.mpr hz.1
      have hcombo_nd : ((unknownNbrs t current).filter
          fun q => decide (q ∈ M)).Nodup := List.Nodup.filter _ hempt_nd
      have hcombo_len : ((unknownNbrs t current).filter
          fun q => decide (q ∈ M)).length =
          u8sub n (flaggedNbrs t current).length := by
        rw [← List.toFinset_card_of_nodup hcombo_nd,
          filterM_toFinset M (unknownNbrs t current), hcardM, hmtf_eq]
      have hcmem := canonical_combo_mem (unknownNbrs t current) hempt_nd
        (by rw [hcombo_len]; exact hmtf1)
      rw [hcombo_len] at hcmem
      have happly := applyCombo_inv hWF (unknownNbrs t current)
        ((unknownNbrs t current).filter fun q => decide (q ∈ M)) t D hinv
        hempt_nd hempt_facts
        (fun q hq => by
          rw [List.mem_filter]
          simp [hq])
      obtain ⟨t', ht', D', hsub, hinv', hclause⟩ :=
        bruteForce_canonical hWF hF hC hNRM rest _
          (D ∪ (unknownNbrs t current).toFinset)
          (fun q hq => hadj q (List.mem_cons_of_mem _ hq)) happly
      refine ⟨t', ?_, D', ?_, hinv', ?_⟩
      · rw [List.mem_flatMap]
        exact ⟨_, hcmem, ht'⟩
      · exact le_trans Finset.subset_union_left hsub
      · intro q hq p hpnbr hpU hpM
        rcases List.mem_cons.mp hq with rfl | hqrest
        · by_cases hpD : p ∈ D
          · exact hsub (Finset.mem_union_left _ hpD)
          · have hpempt : p ∈ unknownNbrs t q := by
              rw [unknownNbrs, List.mem_filter, decide_eq_true_eq, hnbrs]
              exact ⟨hpnbr, (tstate_unknown_iff hinv).mpr ⟨hpU, hpD⟩⟩
            exact hsub (Finset.mem_union_right _
              (List.mem_toFinset.mpr hpempt))
        · exact hclause q hqrest p hpnbr hpU hpM

theorem mem_clicks_strong (states : List GameState) :
    ∀ (l : List Point) (acc : List Action) (a : Action),
      a ∈ l.foldl (fun acc p =>
        if states.all fun t => decide (t.stateAt p = .Flagged) then
          (if states.all fun t => decide (t.stateAt p ≠ .Flagged) then
            acc ++ [Action.mk p .Reveal]
          else acc) ++ [Action.mk p .Flag]
        else
          if states.all fun t => decide (t.stateAt p ≠ .Flagged) then
            acc ++ [Action.mk p .Reveal]
          else acc) acc →
      a ∈ acc ∨ ∃ p ∈ l,
        ((states.all fun t => decide (t.stateAt p = .Flagged)) = true ∧
          a = ⟨p, .Flag⟩) ∨
        ((states.all fun t => decide (t.stateAt p ≠ .Flagged)) = true ∧
          a = ⟨p, .Reveal⟩)
  | [], _, _, h => .inl h
  | p :: rest, acc, a, h => by
    rw [List.foldl_cons] at h
    rcases mem_clicks_strong states rest _ a h with hmem | ⟨r, hr, hcase⟩
    · split_ifs at hmem with h1 h2 h3
      · rcases List.mem_append.mp hmem with hmem1 | hmem1
        · rcases List.mem_append.mp hmem1 with hmem2 | hmem2
          · exact .inl hmem2
          · exact .inr ⟨p, List.mem_cons_self p rest,
              .inr ⟨h2, List.mem_singleton.mp hmem2⟩⟩
        · exact .inr ⟨p, List.mem_cons_self p rest,
            .inl ⟨h1, List.mem_singleton.mp hmem1⟩⟩
      · rcases List.mem_append.mp hmem with hmem1 | hmem1
        · exact .inl hmem1
        · exact .inr ⟨p, List.mem_cons_self p rest,
            .inl ⟨h1, List.mem_singleton.mp hmem1⟩⟩
      · rcases List.mem_append.mp hmem with hmem1 | hmem1
        · exact .inl hmem1
        · exact .inr ⟨p, List.mem_cons_self p rest,
            .inr ⟨h3, List.mem_singleton.mp hmem1⟩⟩
      · exact .inl hmem
    · exact .inr ⟨r, List.mem_cons_of_mem _ hr, hcase⟩

theorem bruteStage_sound {s : GameState} {M : Finset Point}
    (hWF : WFBoard s.board) (hF : Fairness s) (hC : Consistent s M)
    (hNRM : NoRevealedMine s) {m : Move} (h : bruteStage s = some m) :
    MoveSound M m := by
  have hadj : ∀ q ∈ adjacentsOf s, q ∈ s.board.points ∧ posSafe s q = true := by
    intro q hq
    obtain ⟨p, hp, hpU, hqn, hqpos⟩ := mem_adjacentsOf.mp hq
    exact ⟨nbrs_mem_points hp hqn, hqpos⟩
  obtain ⟨t', ht', D', hsub, hinv', hclause⟩ :=
    bruteForce_canonical hWF hF hC hNRM (adjacentsOf s) s ∅ hadj
      (decidedInv_refl s M)
  simp only [bruteStage] at h
  split_ifs at h
  all_goals rw [Option.some_inj] at h
  all_goals rw [← h]
  all_goals intro a ha
  · simp only [List.mem_map, List.mem_filter] at ha
    obtain ⟨p, ⟨hpb, hcond⟩, rfl⟩ := ha
    simp only [Bool.and_eq_true, decide_eq_true_eq] at hcond
    obtain ⟨hc1, hcond2⟩ := hcond
    refine ⟨fun _ => ?_, fun hop => Operation.noConfusion hop⟩
    intro hpM
    have hallrem : ((bruteForce (adjacentsOf s) s).all fun t =>
        decide (t.remainingMines = 0)) = true := by assumption
    have hrem0 : t'.remainingMines = 0 :=
      of_decide_eq_true (List.all_eq_true.mp hallrem t' ht')
    have hd1' : Disjoint (flaggedFinset s) (D' ∩ M) := by
      rw [Finset.disjoint_left]
      intro x hx hx2
      rw [flaggedFinset, List.mem_toFinset, List.mem_filter,
        decide_eq_true_eq] at hx
      have hxd := (hinv'.decided_sub x (Finset.mem_inter.mp hx2).1).2
      rw [hx.2] at hxd
      exact CellState.noConfusion hxd
    have hsub' : flaggedFinset s ∪ D' ∩ M ⊆ M := by
      intro x hx
      rcases Finset.mem_union.mp hx with hxa | hxb
      · rw [flaggedFinset, List.mem_toFinset, List.mem_filter,
          decide_eq_true_eq] at hxa
        exact hC.2.1 x hxa.1 hxa.2
      · exact (Finset.mem_inter.mp hxb).2
    have hceq : (flaggedFinset s ∪ D' ∩ M).card = M.card := by
      rw [Finset.card_union_of_disjoint hd1']
      have h4 := hC.2.2.2
      have h5 := hinv'.rem_eq
      omega
    have hMeq : flaggedFinset s ∪ D' ∩ M = M :=
      Finset.eq_of_subset_of_card_le hsub' (le_of_eq hceq.symm)
    rw [← hMeq] at hpM
    rcases Finset.mem_union.mp hpM with hpF | hpD
    · rw [flaggedFinset, List.mem_toFinset, List.mem_filter,
        decide_eq_true_eq] at hpF
      have hpF2 := hpF.2
      rw [hc1] at hpF2
      exact CellState.noConfusion hpF2
    · have hpD' := (Finset.mem_inter.mp hpD).1
      have hst := hinv'.state_eq p
      rw [if_pos ⟨hc1, hpD'⟩, if_pos (Finset.mem_inter.mp hpD).2] at hst
      have hne := of_decide_eq_true (List.all_eq_true.mp hcond2 t' ht')
      exact hne hst
  · exact absurd ha (List.not_mem_nil a)
  · rcases mem_clicks_strong (bruteForce (adjacentsOf s) s) (emptiesOf s)
        [] a ha with hmem | ⟨p, hp, hcase⟩
    · exact absurd hmem (List.not_mem_nil a)
    · obtain ⟨hpb, hpU, hany⟩ := mem_emptiesOf.mp hp
      rcases hcase with ⟨hall, rfl⟩ | ⟨hall, rfl⟩
      · refine ⟨fun hop => Operation.noConfusion hop, fun _ => ?_⟩
        have ht'flag : t'.stateAt p = .Flagged :=
          of_decide_eq_true (List.all_eq_true.mp hall t' ht')
        exact tstate_flagged_mem_M hinv' hC hpb ht'flag
      · refine ⟨fun _ => ?_, fun hop => Operation.noConfusion hop⟩
        intro hpM
        rw [List.any_eq_true] at hany
        obtain ⟨q, hqn, hqpos⟩ := hany
        have hqadj : q ∈ adjacentsOf s :=
          mem_adjacentsOf.mpr ⟨p, hpb, hpU, hqn, hqpos⟩
        have hpD' : p ∈ D' :=
          hclause q hqadj p (neighbours_symm hpb hqn) hpU hpM
        have hst := hinv'.state_eq p
        rw [if_pos ⟨hpU, hpD'⟩, if_pos hpM] at hst
        have hne := of_decide_eq_true (List.all_eq_true.mp hall t' ht')
        exact hne hst

theorem solve_sound {s : GameState} {M : Finset Point} (hWF : WFBoard s.board)
    (hF : Fairness s) (hNRM : NoRevealedMine s) (hC : Consistent s M)
    {m : Move} (h : solve s = some m) : MoveSound M m := by
  unfold solve at h
  split_ifs at h with hstat
  split at h
  · rename_i r heq
    rw [Option.some_inj] at h
    obtain ⟨p, hp, hrule⟩ := scanRules_eq_some heq
    subst h
    exact localRule_sound hF hC hNRM hp hrule
  · split at h
    · rename_i mv heq
      rw [Option.some_inj] at h
      subst h
      exact @propLoop_sound s M (fuelBound s) (buildFlags s)
        (buildFlags_exact hF hC hNRM) mv heq
    · split at h
      · rename_i mv heq
        rw [Option.some_inj] at h
        subst h
        exact exhaustStage_sound hC heq
      · exact bruteStage_sound hWF hF hC hNRM h

/-- C1 (amended): soundness of the solver on fair boards without a revealed
mine.  For every well-formed game state satisfying the fairness invariant in
which no revealed cell is a mine, every complete mine assignment `M`
consistent with the player-visible state and the total mine count, and every
move returned by `solve`, each Reveal action's point is not in `M` and each
Flag action's point is in `M`.  (The original claim omitted the no-revealed-
mine hypothesis; `exC1` refutes it.) -/
theorem c1_solver_soundness (s : GameState) (M : Finset Point) (m : Move)
    (hWF : WFBoard s.board) (hF : Fairness s) (hNRM : NoRevealedMine s)
    (hC : Consistent s M) (h : solve s = some m) : MoveSound M m :=
  solve_sound hWF hF hNRM hC h

/-- C1 counterexample: `exC1` is well-formed and fair (every non-revealed
cell reads `Unknown`) and `exC1M` is a consistent complete assignment, yet
the move returned by `solve` flags `(1,1)`, which is not a mine of `exC1M` —
rule 2 miscounts because a revealed mine satisfies its neighbour count. -/
theorem c1_counterexample :
    WFBoard exC1.board ∧ Fairness exC1 ∧ Consistent exC1 exC1M ∧
    solve exC1 = some ⟨[⟨(0, 1), .Flag⟩, ⟨(1, 1), .Flag⟩],
      some ⟨.FlagChord, [(0, 1), (1, 1)]⟩⟩ ∧
    ¬ MoveSound exC1M ⟨[⟨(0, 1), .Flag⟩, ⟨(1, 1), .Flag⟩],
      some ⟨.FlagChord, [(0, 1), (1, 1)]⟩⟩ :=
  ⟨by decide, by decide, by decide, by decide, by decide⟩

/-- C1 witness: the amended soundness theorem applied to the concrete state
`exC6W` with its consistent assignment `exC6WM`. -/
theorem c1_witness :
    WFBoard exC6W.board ∧ Fairness exC6W ∧ NoRevealedMine exC6W ∧
    Consistent exC6W exC6WM ∧
    solve exC6W = some ⟨[⟨(2, 1), .Reveal⟩],
      some ⟨.RegionDeductionReveal, [(0, 1), (1, 1)]⟩⟩ ∧
    MoveSound exC6WM ⟨[⟨(2, 1), .Reveal⟩],
      some ⟨.RegionDeductionReveal, [(0, 1), (1, 1)]⟩⟩ :=
  ⟨by decide, by decide, by decide, by decide, by decide,
    c1_solver_soundness exC6W exC6WM
      ⟨[⟨(2, 1), .Reveal⟩], some ⟨.RegionDeductionReveal, [(0, 1), (1, 1)]⟩⟩
      (by decide) (by decide) (by decide) (by decide) (by decide)⟩

end Minsweeper
